import Mathlib

/-
Verification of the goldie-seeking decision-tree core.

The data model and operations below are translated from `GusherNode.py`
(decision-tree nodes, bottom-up aggregates, top-down cost refresh,
validator, serializer) and `getstrats.py` (graph partitioner and the
memoized optimal "narrow" tree builder).  Numeric fields use `ℚ`.

Mutable Python objects become immutable values: every operation that
mutates a node in Python returns the updated node here.  A node's
`parent` attribute in Python is a reference to the full parent object;
the embedded code reads only its truthiness (`add_children`,
`update_costs` root test), the three fields compared by
`GusherNode.__eq__` (`validate`), and the parent's name and
just-updated risk during the `update_costs` recursion (where the
parent reference always points at the node holding the child, since
`add_children` is the only construction path and it sets the
back-reference to the holder).  Accordingly `parent` is embedded as an
optional record of the three `__eq__`-compared fields, and the
`update_costs` recursion passes the holder's name and freshly computed
risk down to the children.
-/

set_option autoImplicit false

/-- Fields of the parent back-reference that the embedded code reads:
exactly the three fields `GusherNode.__eq__` compares. -/
structure PRef where
  name : String
  weight : ℚ
  findable : Bool
deriving DecidableEq, Repr

/-- Per-node attributes of `GusherNode.__init__` (GusherNode.py lines 11-32).
`obj` is the objective-score attribute that `getstrats.py` stores on roots
(line 137); in Python it is a dynamic attribute, written before it is ever
read, so it is embedded as a field initialized to 0. -/
@[ext] structure GData where
  name : String
  findable : Bool
  weight : ℚ
  parent : Option PRef
  distance : ℚ
  latency : ℚ
  risk : ℚ
  size : ℕ
  total_latency : ℚ
  total_risk : ℚ
  obj : ℚ
deriving DecidableEq, Repr

/-- Modelled from the spec: the GraphModel/GusherMap collaborator is external
to src (`from GusherMap import BASKET_LABEL`); GusherNode.py consumes only its
`distance(u, v)` and `weight(v)` operations (spec section 6: GraphModel
contract). -/
structure GusherMap where
  distance : String → String → ℚ
  weight : String → ℚ

/-- Modelled from the spec: `BASKET_LABEL` is imported from the external
GusherMap module; a distinguished start-point label (spec glossary: Basket). -/
def BASKET_LABEL : String := "basket"

/-- One decision-tree node with its two optional children (`low`, `high`). -/
inductive GusherNode where
  | mk (data : GData) (high low : Option GusherNode)

namespace GusherNode

def data : GusherNode → GData
  | mk d _ _ => d

def high : GusherNode → Option GusherNode
  | mk _ h _ => h

def low : GusherNode → Option GusherNode
  | mk _ _ l => l

end GusherNode

/-- Weight assigned by `GusherNode.__init__`: from the gusher map when one
is given (`if gusher_map:`), else 1. -/
def defWeight (gm : Option GusherMap) (name : String) : ℚ :=
  match gm with
  | some m => m.weight name
  | none => 1

/-- GusherNode.__init__ (lines 11-32): a bare node with no children,
default costs, weight from the gusher map when one is given. -/
def initNode (name : String) (gm : Option GusherMap) (findable : Bool) : GusherNode :=
  GusherNode.mk
    { name := name
      findable := findable
      weight := defWeight gm name
      parent := none
      distance := 1
      latency := 0
      risk := 0
      size := if findable then 1 else 0
      total_latency := 0
      total_risk := 0
      obj := 0 }
    none none

/-- GusherNode.__str__ (lines 34-35): the node's label, the name followed by
the `*` marker iff the node is non-findable; char-level form. -/
def labelChars (d : GData) : List Char :=
  d.name.data ++ (if d.findable then [] else ['*'])

/-- The label as a string (`str(node)` in Python). -/
def strN (t : GusherNode) : String :=
  String.mk (labelChars t.data)

/-- GusherNode.__eq__ (lines 47-51): equality with a possibly missing other
node compares only name, weight and findability. -/
def eqPy (t : GusherNode) (o : Option GusherNode) : Bool :=
  match o with
  | none => false
  | some u =>
    decide (t.data.name = u.data.name) &&
    decide (t.data.weight = u.data.weight) &&
    decide (t.data.findable = u.data.findable)

/-- The comparison `child.parent == node` performed by `validate`
(lines 157, 161): Python dispatches to `GusherNode.__eq__` with the recorded
parent on the left, which compares name, weight and findability, and a
missing parent compares unequal to any node. -/
def eqPyRef (p : Option PRef) (d : GData) : Bool :=
  match p with
  | none => false
  | some r =>
    decide (r.name = d.name) && decide (r.weight = d.weight) &&
    decide (r.findable = d.findable)

/-- GusherNode.is_same_tree (lines 69-82): full structural comparison; a
missing other tree compares unequal, each present child must match
recursively, and a missing child on one side requires a missing child on the
other. -/
def is_same_tree : GusherNode → Option GusherNode → Bool
  | _, none => false
  | .mk d (some h) (some l), some (.mk d' hi' lo') =>
    eqPy (.mk d (some h) (some l)) (some (.mk d' hi' lo')) &&
    (is_same_tree h hi' && is_same_tree l lo')
  | .mk d (some h) none, some (.mk d' hi' lo') =>
    eqPy (.mk d (some h) none) (some (.mk d' hi' lo')) &&
    (is_same_tree h hi' && lo'.isNone)
  | .mk d none (some l), some (.mk d' hi' lo') =>
    eqPy (.mk d none (some l)) (some (.mk d' hi' lo')) &&
    (hi'.isNone && is_same_tree l lo')
  | .mk d none none, some (.mk d' hi' lo') =>
    eqPy (.mk d none none) (some (.mk d' hi' lo')) &&
    (hi'.isNone && lo'.isNone)

/-- The mutation `child.parent = self; child.distance = dist` performed on an
attached child inside `add_children` (lines 91-93 and 100-102). -/
def attachTo (pd : GData) (dist : ℚ) (c : GusherNode) : GusherNode :=
  GusherNode.mk
    { c.data with parent := some ⟨pd.name, pd.weight, pd.findable⟩, distance := dist }
    c.high c.low

/-- GusherNode.add_children (lines 84-108).  The Python asserts (occupied
slot, child already owned) become a `none` result; on success the children
are attached with parent back-references and distances set, and the node's
own aggregates are recomputed from the children's stored aggregates:
`size = size_l + size_h + (1 if findable)`,
`total_latency = totlat_l + dist_l*size_l + totlat_h + dist_h*size_h`,
`total_risk = totrisk_l + totrisk_h + weight*total_latency`.
A missing child contributes 0 to every aggregate. -/
def add_children (self : GusherNode) (high low : Option GusherNode)
    (dist_h dist_l : ℚ) : Option GusherNode :=
  let d := self.data
  let checkH : Bool := match high with
    | none => true
    | some h => self.high.isNone && h.data.parent.isNone
  let checkL : Bool := match low with
    | none => true
    | some l => self.low.isNone && l.data.parent.isNone
  if checkH && checkL then
    let high' := high.map (attachTo d dist_h)
    let low' := low.map (attachTo d dist_l)
    let size_h : ℕ := match high with
      | some h => h.data.size
      | none => 0
    let size_l : ℕ := match low with
      | some l => l.data.size
      | none => 0
    let totlat_h : ℚ := match high with
      | some h => h.data.total_latency
      | none => 0
    let totlat_l : ℚ := match low with
      | some l => l.data.total_latency
      | none => 0
    let totrisk_h : ℚ := match high with
      | some h => h.data.total_risk
      | none => 0
    let totrisk_l : ℚ := match low with
      | some l => l.data.total_risk
      | none => 0
    let totlat := totlat_l + dist_l * (size_l : ℚ) + totlat_h + dist_h * (size_h : ℚ)
    some (GusherNode.mk
      { d with size := size_l + size_h + (if d.findable then 1 else 0)
               total_latency := totlat
               total_risk := totrisk_l + totrisk_h + d.weight * totlat }
      high' low')
  else none

/-- GusherNode.__iter__ (lines 40-45): the node, then the high subtree, then
the low subtree. -/
def nodesList : GusherNode → List GusherNode
  | .mk d (some h) (some l) => .mk d (some h) (some l) :: (nodesList h ++ nodesList l)
  | .mk d (some h) none => .mk d (some h) none :: nodesList h
  | .mk d none (some l) => .mk d none (some l) :: nodesList l
  | .mk d none none => [.mk d none none]

/-- Per-node field update of the `update_costs` recursion (lines 115-128).
`pinfo` carries the parent's name and just-updated risk (read in Python
through `node.parent`, which `add_children` always points at the holding
node); `pinfo = none` corresponds to the root branch (`node.parent` falsy).
With a gusher map the distance is refreshed from the map, otherwise it is
kept; the root's latency is the distance from the start point (0 without a
map), its risk is 0, and with a map its `total_latency` gains
`latency * size`. -/
def updData (gm : Option GusherMap) (start : String) (d : GData)
    (parent_latency predw : ℚ) (pinfo : Option (String × ℚ)) : GData :=
  match pinfo with
  | some (pname, prisk) =>
    let dist : ℚ := match gm with
      | some m => m.distance pname d.name
      | none => d.distance
    { d with distance := dist
             latency := parent_latency + dist
             risk := prisk + predw * dist }
  | none =>
    match gm with
    | some m =>
      let lat := m.distance start d.name
      { d with latency := lat
               risk := 0
               total_latency := d.total_latency + lat * (d.size : ℚ) }
    | none => { d with latency := 0, risk := 0 }

/-- The `recurse` helper of GusherNode.update_costs (lines 115-133): update
this node's fields, then recurse into the high and low children with this
node's latency, the accumulated predecessor weight plus this node's weight,
and this node's name and freshly computed risk as the parent info. -/
def updRec (gm : Option GusherMap) (start : String) :
    GusherNode → ℚ → ℚ → Option (String × ℚ) → GusherNode
  | .mk d (some h) (some l), pl, pw, pi =>
    let d' := updData gm start d pl pw pi
    GusherNode.mk d'
      (some (updRec gm start h d'.latency (pw + d.weight) (some (d.name, d'.risk))))
      (some (updRec gm start l d'.latency (pw + d.weight) (some (d.name, d'.risk))))
  | .mk d (some h) none, pl, pw, pi =>
    let d' := updData gm start d pl pw pi
    GusherNode.mk d'
      (some (updRec gm start h d'.latency (pw + d.weight) (some (d.name, d'.risk))))
      none
  | .mk d none (some l), pl, pw, pi =>
    let d' := updData gm start d pl pw pi
    GusherNode.mk d'
      none
      (some (updRec gm start l d'.latency (pw + d.weight) (some (d.name, d'.risk))))
  | .mk d none none, pl, pw, pi =>
    GusherNode.mk (updData gm start d pl pw pi) none none

/-- GusherNode.update_costs (lines 113-135): the top-down refresh, called on
the root of a tree (source docstring), i.e. `recurse(self, 0, 0)` with no
parent info. -/
def update_costs (gm : Option GusherMap) (start : String) (t : GusherNode) : GusherNode :=
  updRec gm start t 0 0 none

/-- GusherNode.calc_tree_score (lines 137-143): run `update_costs`, then
overwrite the root's `total_latency`/`total_risk` with the sums of `latency`
and `risk` over all findable nodes of the tree. -/
def calc_tree_score (gm : Option GusherMap) (start : String) (t : GusherNode) : GusherNode :=
  match update_costs gm start t with
  | .mk d hi lo =>
    let fnodes := (nodesList (GusherNode.mk d hi lo)).filter (fun n => n.data.findable)
    GusherNode.mk
      { d with total_latency := (fnodes.map (fun n => n.data.latency)).sum
               total_risk := (fnodes.map (fun n => n.data.risk)).sum }
      hi lo

/-- The `recurse` helper of GusherNode.validate (lines 147-166), carrying the
set of ancestor labels (`str(node)` strings, i.e. name plus non-findable
marker).  A failed Python assert becomes `false`: label already seen on the
path, a child's recorded parent back-reference not `__eq__`-equal to the
holding node, or a non-findable leaf. -/
def validateRec : GusherNode → List String → Bool
  | .mk d (some h) (some l), preds =>
    let lbl := String.mk (labelChars d)
    !(preds.contains lbl) &&
    (eqPyRef h.data.parent d && validateRec h (lbl :: preds)) &&
    (eqPyRef l.data.parent d && validateRec l (lbl :: preds))
  | .mk d (some h) none, preds =>
    let lbl := String.mk (labelChars d)
    !(preds.contains lbl) && (eqPyRef h.data.parent d && validateRec h (lbl :: preds))
  | .mk d none (some l), preds =>
    let lbl := String.mk (labelChars d)
    !(preds.contains lbl) && (eqPyRef l.data.parent d && validateRec l (lbl :: preds))
  | .mk d none none, preds =>
    !(preds.contains (String.mk (labelChars d))) && d.findable

/-- GusherNode.validate (lines 145-167): `recurse(self, set())`; `true` means
no assert fires.  The check never modifies the tree. -/
def validate (t : GusherNode) : Bool :=
  validateRec t []

/-- write_tree (lines 184-196): modified Newick notation.  Both children give
`label(high, low)` (with the source's space after the comma), a single high
child `label(high,)`, a single low child `label(,low)`, a leaf just the
label; char-level form. -/
def writeChars : GusherNode → List Char
  | .mk d (some h) (some l) =>
    labelChars d ++ '(' :: (writeChars h ++ ',' :: ' ' :: writeChars l ++ [')'])
  | .mk d (some h) none => labelChars d ++ '(' :: (writeChars h ++ [',', ')'])
  | .mk d none (some l) => labelChars d ++ '(' :: ',' :: (writeChars l ++ [')'])
  | .mk d none none => labelChars d

/-- write_tree as a string. -/
def write_tree (t : GusherNode) : String :=
  String.mk (writeChars t)

/-- Whitespace skipped by pyparsing between tokens (default whitespace
characters, line 199 onward uses the library defaults). -/
def isWS (c : Char) : Bool :=
  c == ' ' || c == '\t' || c == '\n'

/-- A character matched by the `\w` class of the node token regex
`\w+\*?` (line 200). -/
def isWordChar (c : Char) : Bool :=
  c.isAlphanum || c == '_'

/-- Raw parse result of the tree grammar (lines 199-205): the matched node
token (name with optional `*` suffix) and, when the parenthesized part is
present, the optional high and low subtrees.  An absent parenthesized part
and `(,)` both leave both children empty, which is also how `build_tree`
treats them (line 218). -/
inductive RawTree where
  | mk (root : List Char) (hi lo : Option RawTree)

/-- The node token `\w+\*?` with pyparsing's leading-whitespace skipping:
after skipping whitespace, take a nonempty run of word characters and an
optional single `*`. -/
def parseNodeTok (cs : List Char) : Option (List Char × List Char) :=
  let cs1 := cs.dropWhile isWS
  let w := cs1.takeWhile isWordChar
  let r := cs1.dropWhile isWordChar
  if w.isEmpty then none
  else
    match r with
    | '*' :: r2 => some (w ++ ['*'], r2)
    | _ => some (w, r)

/-- Recursive-descent reading of the grammar
`tree := node [ "(" [tree] "," [tree] ")" ]` with pyparsing semantics:
whitespace is skipped before every token, `Optional` backtracks on failure
(an unparsable optional subtree is simply absent, and if the parenthesized
group fails as a whole the tree is just the node token).  The fuel bounds
recursion depth; every nested tree sits behind at least one consumed
character, so `length + 1` fuel always suffices. -/
def parseSubF (pt : List Char → Option (RawTree × List Char)) (r : List Char) :
    Option (Option RawTree × Option RawTree × List Char) :=
  match (r.dropWhile isWS) with
  | '(' :: r2 =>
    let hiRes : Option RawTree × List Char :=
      match pt r2 with
      | some (t, r3) => (some t, r3)
      | none => (none, r2)
    match (hiRes.2.dropWhile isWS) with
    | ',' :: r5 =>
      let loRes : Option RawTree × List Char :=
        match pt r5 with
        | some (t, r6) => (some t, r6)
        | none => (none, r5)
      match (loRes.2.dropWhile isWS) with
      | ')' :: r8 => some (hiRes.1, loRes.1, r8)
      | _ => none
    | _ => none
  | _ => none

def parseTreeF : ℕ → List Char → Option (RawTree × List Char)
  | 0, _ => none
  | fuel + 1, cs =>
    match parseNodeTok cs with
    | none => none
    | some (tok, r) =>
      match parseSubF (parseTreeF fuel) r with
      | some (hi, lo, r') => some (RawTree.mk tok hi lo, r')
      | none => some (RawTree.mk tok none none, r)

/-- `tokens.root.rstrip(NEVER_FIND_FLAG)` (line 216): drop trailing `*`
characters. -/
def rstripStar (tok : List Char) : List Char :=
  (tok.reverse.dropWhile (fun c => c == '*')).reverse

/-- The `build_tree` helper of read_tree (lines 214-230): findability from
the token's last character, name with the marker stripped, a fresh node, and
when at least one subtree is present, recursively built children attached
with distances from the gusher map (1 without a map).  The `add_children`
asserts cannot fire here (fresh parentless nodes); a `none` from them is
propagated. -/
def buildTree (gm : Option GusherMap) : RawTree → Option GusherNode
  | .mk tok (some rh) (some rl) =>
    let findable := match tok.getLast? with
      | some c => decide (c ≠ '*')
      | none => true
    let rootname : String := String.mk (rstripStar tok)
    let root := initNode rootname gm findable
    match buildTree gm rh, buildTree gm rl with
    | some th, some tl =>
      let dist_h : ℚ := match gm with
        | some m => m.distance rootname th.data.name
        | none => 1
      let dist_l : ℚ := match gm with
        | some m => m.distance rootname tl.data.name
        | none => 1
      add_children root (some th) (some tl) dist_h dist_l
    | _, _ => none
  | .mk tok (some rh) none =>
    let findable := match tok.getLast? with
      | some c => decide (c ≠ '*')
      | none => true
    let rootname : String := String.mk (rstripStar tok)
    let root := initNode rootname gm findable
    match buildTree gm rh with
    | some th =>
      let dist_h : ℚ := match gm with
        | some m => m.distance rootname th.data.name
        | none => 1
      add_children root (some th) none dist_h 1
    | none => none
  | .mk tok none (some rl) =>
    let findable := match tok.getLast? with
      | some c => decide (c ≠ '*')
      | none => true
    let rootname : String := String.mk (rstripStar tok)
    let root := initNode rootname gm findable
    match buildTree gm rl with
    | some tl =>
      let dist_l : ℚ := match gm with
        | some m => m.distance rootname tl.data.name
        | none => 1
      add_children root none (some tl) 1 dist_l
    | none => none
  | .mk tok none none =>
    let findable := match tok.getLast? with
      | some c => decide (c ≠ '*')
      | none => true
    some (initNode (String.mk (rstripStar tok)) gm findable)

/-- read_tree (lines 208-236): parse the text (pyparsing's `parseString`
without `parseAll` accepts a parsable prefix), build the node tree, and run
`calc_tree_score` with the same gusher map and start point before returning
the root.  A parse error or assert is `none`. -/
def read_tree (s : String) (gm : Option GusherMap) (start : String) : Option GusherNode :=
  match parseTreeF (s.data.length + 1) s.data with
  | none => none
  | some (raw, _) =>
    match buildTree gm raw with
    | none => none
    | some root => some (calc_tree_score gm start root)

/-- Sets the `obj` attribute (`root.obj = obj`, getstrats.py line 137). -/
def setObj (o : ℚ) (t : GusherNode) : GusherNode :=
  GusherNode.mk { t.data with obj := o } t.high t.low

/-- `high.obj if high else 0` (getstrats.py lines 120-121). -/
def objOpt : Option GusherNode → ℚ
  | some t => t.data.obj
  | none => 0

/-- The gusher graph consumed by getstrats.py: vertex list in the graph's
iteration order, adjacency, and per-vertex penalty (networkx graph with a
`penalty` node attribute; subgraph views iterate in parent-graph order, so a
vertex subset is embedded as an order-preserving sublist of `nodes`). -/
structure Graph where
  nodes : List String
  adj : String → String → Bool
  penalty : String → ℚ

/-- Modelled from the spec: getstrats.py builds nodes with
`GusherNode(name, G)` through an older GusherNode API; the GraphModel
contract (spec section 6) supplies the per-vertex penalty as the node weight
and unit distances (`distance` defaults to 1 when no model is supplied). -/
def gmOfGraph (G : Graph) : GusherMap :=
  { distance := fun _ _ => 1, weight := G.penalty }

/-- `makenode` (getstrats.py lines 93-94): a fresh findable node for a
vertex, weighted from the graph. -/
def makenode (G : Graph) (name : String) : GusherNode :=
  initNode name (some (gmOfGraph G)) true

/-- splitgraph (getstrats.py lines 49-55) on a vertex subset `O`: `A` is the
sub-selection of vertices of `O` adjacent to `V`, `B` the vertices of `O`
neither adjacent to `V` nor `V` itself; both keep the parent graph's
iteration order (networkx subgraph views). -/
def splitgraph (G : Graph) (O : List String) (V : String) :
    List String × List String :=
  (O.filter (fun u => G.adj V u),
   O.filter (fun u => !(G.adj V u) && decide (u ≠ V)))

/-- The memoization table `subgraphs` (getstrats.py lines 96-99): vertex
subset key to serialized subtree text and objective score. -/
def Memo : Type := List (List String × String × ℚ)

/-- Dictionary lookup `Okey in subgraphs` (line 102). -/
def lookupMemo : Memo → List String → Option (String × ℚ)
  | [], _ => none
  | (k, v) :: rest, O => if k = O then some v else lookupMemo rest O

/-- Modelled from the spec: getstrats.py line 103 calls an older
`readtree(text, G, obj=score)` missing from src; per the spec (section 4.7)
a memo hit re-parses the stored serialized form into an independent tree and
attaches the stored objective, embedded as src's `read_tree` followed by
setting `obj`. -/
def readtreeObj (s : String) (G : Graph) (o : ℚ) : Option GusherNode :=
  (read_tree s (some (gmOfGraph G)) BASKET_LABEL).map (setObj o)

/-- One entry of the candidate dictionary `Vcand` (line 123): the pivot, its
objective score `(n - 1) * penalty(V) + objH + objL`, and the two solved
subtrees. -/
structure Cand where
  V : String
  score : ℚ
  hiT : Option GusherNode
  loT : Option GusherNode

/-- The `for V in O` loop of `getstratrecurse` (lines 113-123): for each
candidate pivot, split the subset, recursively solve both parts (threading
the memo table through every call), and record the scored candidate. -/
def candLoop (G : Graph) (rec : List String → Memo → Option GusherNode × Memo)
    (O : List String) (n : ℚ) : List String → Memo → List Cand × Memo
  | [], memo => ([], memo)
  | V :: Vs, memo =>
    let AB := splitgraph G O V
    let hiR := rec AB.1 memo
    let loR := rec AB.2 hiR.2
    let c : Cand := ⟨V, (n - 1) * G.penalty V + objOpt hiR.1 + objOpt loR.1, hiR.1, loR.1⟩
    let tail := candLoop G rec O n Vs loR.2
    (c :: tail.1, tail.2)

/-- `V = min(Vcand, key=lambda g: Vcand[g][0])` (line 126): the first
candidate with minimal score, in iteration order (Python's `min` keeps the
earliest minimum). -/
def chooseMin : List Cand → Option Cand
  | [] => none
  | c :: rest => some (rest.foldl (fun best x => if x.score < best.score then x else best) c)

/-- `getstratrecurse` (getstrats.py lines 100-140).  A memo hit re-parses
the stored text with the stored objective.  A singleton subset yields a leaf
(objective 0 recorded on it via line 137).  A larger subset scores every
pivot, takes the minimum, builds the root with `add_children` (default unit
distances, line 131; the asserts cannot fire on these fresh nodes) and, as
the root has a child, memoizes `(write_tree(root), obj)` under the subset
key.  An empty subset returns no tree.  The fuel only bounds recursion
depth: every recursive call works on a subset missing the pivot, so depth is
at most the vertex count and `|nodes| + 1` fuel is always enough. -/
def getstratrecurse (G : Graph) : ℕ → List String → Memo → Option GusherNode × Memo
  | 0, _, memo => (none, memo)
  | fuel + 1, O, memo =>
    match lookupMemo memo O with
    | some (s, o) => (readtreeObj s G o, memo)
    | none =>
      if O.length = 1 then
        match O with
        | v :: _ => (some (setObj 0 (makenode G v)), memo)
        | [] => (none, memo)
      else if 1 < O.length then
        let res := candLoop G (getstratrecurse G fuel) O (O.length : ℚ) O memo
        match chooseMin res.1 with
        | some c =>
          match add_children (makenode G c.V) c.hiT c.loT 1 1 with
          | some root =>
            let root := setObj c.score root
            if root.high.isSome || root.low.isSome then
              (some root, (O, write_tree root, root.data.obj) :: res.2)
            else (some root, res.2)
          | none => (none, res.2)
        | none => (none, res.2)
      else (none, memo)

/-- getstratnarrow (getstrats.py lines 84-147): solve the whole vertex set
with an empty memo table, then `updatecost()` on the root (src
`update_costs` with no gusher map and the default start). -/
def getstratnarrow (G : Graph) : Option GusherNode :=
  match (getstratrecurse G (G.nodes.length + 1) G.nodes []).1 with
  | some root => some (update_costs none BASKET_LABEL root)
  | none => none

/-- Structural skeleton of a node: the fields `GusherNode.__eq__` compares
(name, weight, findability), plus the children's skeletons.  `is_same_tree`
is shown to decide exactly equality of skeletons. -/
inductive Skel where
  | mk (name : String) (weight : ℚ) (findable : Bool) (hi lo : Option Skel)

/-- The skeleton of a tree. -/
def skel : GusherNode → Skel
  | .mk d (some h) (some l) => Skel.mk d.name d.weight d.findable (some (skel h)) (some (skel l))
  | .mk d (some h) none => Skel.mk d.name d.weight d.findable (some (skel h)) none
  | .mk d none (some l) => Skel.mk d.name d.weight d.findable none (some (skel l))
  | .mk d none none => Skel.mk d.name d.weight d.findable none none

/-- The node reached by a path of high (`true`) / low (`false`) steps. -/
def subtreeAt : GusherNode → List Bool → Option GusherNode
  | t, [] => some t
  | .mk _ hi _, true :: p =>
    match hi with
    | some h => subtreeAt h p
    | none => none
  | .mk _ _ lo, false :: p =>
    match lo with
    | some l => subtreeAt l p
    | none => none

/-- Sum of the weights of the nodes at positions `[]` through `p` inclusive
along the path `p` (i.e. of all strict ancestors of a child of the node at
`p`); 0 past a missing child. -/
def pathWeightIncl : GusherNode → List Bool → ℚ
  | .mk d _ _, [] => d.weight
  | .mk d hi _, true :: p =>
    d.weight + (match hi with
      | some h => pathWeightIncl h p
      | none => 0)
  | .mk d _ lo, false :: p =>
    d.weight + (match lo with
      | some l => pathWeightIncl l p
      | none => 0)

/-- Height of a tree (a leaf has height 1). -/
def heightT : GusherNode → ℕ
  | .mk _ (some h) (some l) => 1 + max (heightT h) (heightT l)
  | .mk _ (some h) none => 1 + heightT h
  | .mk _ none (some l) => 1 + heightT l
  | .mk _ none none => 1

/-- A name the node-token regex can reproduce: nonempty, and every
character a word character (in particular no `*`, parenthesis, comma or
whitespace). -/
def wordName (s : String) : Bool :=
  !s.data.isEmpty && s.data.all isWordChar

/-- Every node of the tree has a regex-reproducible name. -/
def wordlikeB : GusherNode → Bool
  | .mk d (some h) (some l) => wordName d.name && (wordlikeB h && wordlikeB l)
  | .mk d (some h) none => wordName d.name && wordlikeB h
  | .mk d none (some l) => wordName d.name && wordlikeB l
  | .mk d none none => wordName d.name

/-- Every node's weight agrees with the gusher map (1 without a map), as
holds for any tree whose nodes were created with this map. -/
def weightFromB (gm : Option GusherMap) : GusherNode → Bool
  | .mk d (some h) (some l) =>
    decide (d.weight = defWeight gm d.name) && (weightFromB gm h && weightFromB gm l)
  | .mk d (some h) none =>
    decide (d.weight = defWeight gm d.name) && weightFromB gm h
  | .mk d none (some l) =>
    decide (d.weight = defWeight gm d.name) && weightFromB gm l
  | .mk d none none =>
    decide (d.weight = defWeight gm d.name)

/-- The raw parse that `write_tree`'s output denotes: the node's label and
the raw forms of the present children. -/
def rawOf : GusherNode → RawTree
  | .mk d (some h) (some l) => RawTree.mk (labelChars d) (some (rawOf h)) (some (rawOf l))
  | .mk d (some h) none => RawTree.mk (labelChars d) (some (rawOf h)) none
  | .mk d none (some l) => RawTree.mk (labelChars d) none (some (rawOf l))
  | .mk d none none => RawTree.mk (labelChars d) none none

/-- Spec-side path formulation: no node shares a key (as computed by `key`)
with any of its strict ancestors, on any root-to-node path. -/
def RepFreeBy (key : GusherNode → String) (t : GusherNode) : Prop :=
  ∀ p d q a c, subtreeAt t p = some a → subtreeAt t (p ++ d :: q) = some c →
    key a ≠ key c

/-- Spec-side path formulation: every child's recorded parent back-reference
is `__eq__`-equal to the node that holds it. -/
def ParentOKPath (t : GusherNode) : Prop :=
  ∀ p c, subtreeAt t p = some c →
    (∀ h, c.high = some h → eqPyRef h.data.parent c.data = true) ∧
    (∀ l, c.low = some l → eqPyRef l.data.parent c.data = true)

/-- Spec-side path formulation: every node with no children is findable. -/
def LeafOKPath (t : GusherNode) : Prop :=
  ∀ p c, subtreeAt t p = some c → c.high = none → c.low = none →
    c.data.findable = true

/-- A node with no children. -/
def isLeafB (t : GusherNode) : Bool :=
  t.high.isNone && t.low.isNone

/-- A node with exactly one child, that child being a leaf. -/
def oneChildLeaf (t : GusherNode) : Bool :=
  match t.high, t.low with
  | some g, none => isLeafB g
  | none, some g => isLeafB g
  | _, _ => false

/-- The spec's "2-level tree" shapes for three locations: one pivot with two
singleton children, or a pivot followed by a chain of two. -/
def shapeTwoLevel (t : GusherNode) : Bool :=
  match t.high, t.low with
  | some h, some l => isLeafB h && isLeafB l
  | some h, none => oneChildLeaf h
  | none, some l => oneChildLeaf l
  | none, none => false

/-- Convenience constructor for hand-built test nodes (default cost fields,
as `GusherNode.__init__` leaves them). -/
def mkD (name : String) (findable : Bool) (w : ℚ) (parent : Option PRef) : GData :=
  { name := name
    findable := findable
    weight := w
    parent := parent
    distance := 1
    latency := 0
    risk := 0
    size := if findable then 1 else 0
    total_latency := 0
    total_risk := 0
    obj := 0 }

/-- Hand-built tree `a(a*(b,),)`: a findable root named `a`, a non-findable
high child also named `a`, and a findable leaf `b` below it; parent
back-references as `add_children` would set them. -/
def cexRepeat : GusherNode :=
  GusherNode.mk (mkD "a" true 1 none)
    (some (GusherNode.mk (mkD "a" false 1 (some ⟨"a", 1, true⟩))
      (some (GusherNode.mk (mkD "b" true 1 (some ⟨"a", 1, false⟩)) none none))
      none))
    none

/-- Scenario graph: three locations `A`, `B`, `C`, pairwise adjacent,
uniform penalty 1. -/
def triGraph : Graph :=
  { nodes := ["A", "B", "C"]
    adj := fun u v => decide (u ≠ v)
    penalty := fun _ => 1 }

/-- Scenario graph: two adjacent locations `A` (penalty 2) and `B`
(penalty 1). -/
def twoGraph : Graph :=
  { nodes := ["A", "B"]
    adj := fun u v => decide (u ≠ v)
    penalty := fun v => if v = "A" then 2 else 1 }

/-- Aggregates read from an optional child inside `add_children`
(lines 85-87: 0 for a missing child). -/
def sizeOpt : Option GusherNode → ℕ
  | some t => t.data.size
  | none => 0

/-- Total latency of an optional child (0 for a missing child). -/
def totLatOpt : Option GusherNode → ℚ
  | some t => t.data.total_latency
  | none => 0

/-- Total risk of an optional child (0 for a missing child). -/
def totRiskOpt : Option GusherNode → ℚ
  | some t => t.data.total_risk
  | none => 0

/-- A per-node property holding at every node of a tree. -/
def AllNodes (P : GusherNode → Prop) (t : GusherNode) : Prop :=
  ∀ p c, subtreeAt t p = some c → P c

/-- Agreement on everything `update_costs` and `calc_tree_score` carry over
unchanged from a non-root node: all fields except latency and risk (which
the refresh overwrites everywhere), with distance agreement only required
when no gusher map refreshes it (`needDist`). -/
def agreeX (needDist : Bool) : GusherNode → GusherNode → Prop
  | .mk d (some h) (some l), .mk d' (some h') (some l') =>
    d.name = d'.name ∧ d.findable = d'.findable ∧ d.weight = d'.weight ∧
    d.parent = d'.parent ∧ d.size = d'.size ∧ d.obj = d'.obj ∧
    d.total_latency = d'.total_latency ∧ d.total_risk = d'.total_risk ∧
    (needDist = true → d.distance = d'.distance) ∧
    agreeX needDist h h' ∧ agreeX needDist l l'
  | .mk d (some h) none, .mk d' (some h') none =>
    d.name = d'.name ∧ d.findable = d'.findable ∧ d.weight = d'.weight ∧
    d.parent = d'.parent ∧ d.size = d'.size ∧ d.obj = d'.obj ∧
    d.total_latency = d'.total_latency ∧ d.total_risk = d'.total_risk ∧
    (needDist = true → d.distance = d'.distance) ∧
    agreeX needDist h h'
  | .mk d none (some l), .mk d' none (some l') =>
    d.name = d'.name ∧ d.findable = d'.findable ∧ d.weight = d'.weight ∧
    d.parent = d'.parent ∧ d.size = d'.size ∧ d.obj = d'.obj ∧
    d.total_latency = d'.total_latency ∧ d.total_risk = d'.total_risk ∧
    (needDist = true → d.distance = d'.distance) ∧
    agreeX needDist l l'
  | .mk d none none, .mk d' none none =>
    d.name = d'.name ∧ d.findable = d'.findable ∧ d.weight = d'.weight ∧
    d.parent = d'.parent ∧ d.size = d'.size ∧ d.obj = d'.obj ∧
    d.total_latency = d'.total_latency ∧ d.total_risk = d'.total_risk ∧
    (needDist = true → d.distance = d'.distance)
  | _, _ => False

/-- Agreement at the root of a full refresh: as `agreeX` for the children,
while the root's latency, risk and both totals are free (the refresh
overwrites latency and risk, and `calc_tree_score` overwrites the root's
totals). -/
def agreeTop (needDist : Bool) : GusherNode → GusherNode → Prop
  | .mk d (some h) (some l), .mk d' (some h') (some l') =>
    d.name = d'.name ∧ d.findable = d'.findable ∧ d.weight = d'.weight ∧
    d.parent = d'.parent ∧ d.size = d'.size ∧ d.obj = d'.obj ∧
    d.distance = d'.distance ∧
    agreeX needDist h h' ∧ agreeX needDist l l'
  | .mk d (some h) none, .mk d' (some h') none =>
    d.name = d'.name ∧ d.findable = d'.findable ∧ d.weight = d'.weight ∧
    d.parent = d'.parent ∧ d.size = d'.size ∧ d.obj = d'.obj ∧
    d.distance = d'.distance ∧
    agreeX needDist h h'
  | .mk d none (some l), .mk d' none (some l') =>
    d.name = d'.name ∧ d.findable = d'.findable ∧ d.weight = d'.weight ∧
    d.parent = d'.parent ∧ d.size = d'.size ∧ d.obj = d'.obj ∧
    d.distance = d'.distance ∧
    agreeX needDist l l'
  | .mk d none none, .mk d' none none =>
    d.name = d'.name ∧ d.findable = d'.findable ∧ d.weight = d'.weight ∧
    d.parent = d'.parent ∧ d.size = d'.size ∧ d.obj = d'.obj ∧
    d.distance = d'.distance
  | _, _ => False

/-- Fresh parentless leaf nodes for the reuse scenario of spec section 8,
scenario 4. -/
def nodeX : GusherNode := initNode "X" none true

/-- Fresh node `P` for the reuse scenario. -/
def nodeP : GusherNode := initNode "P" none true

/-- Fresh node `Q` for the reuse scenario. -/
def nodeQ : GusherNode := initNode "Q" none true

/-- One-vertex graph for exercising the builder's singleton base case. -/
def oneGraph : Graph :=
  { nodes := ["x"], adj := fun _ _ => false, penalty := fun _ => 1 }

/-- Concrete gusher map for round-trip instances: distances 2, weights 3. -/
def wMap : GusherMap :=
  { distance := fun _ _ => 2, weight := fun _ => 3 }

/-- Concrete two-node tree with weights from `wMap`, for round-trip
instances. -/
def wTree : GusherNode :=
  GusherNode.mk ((mkD "f" true 3 none))
    (some (GusherNode.mk (mkD "e" false 3 (some ⟨"f", 3, true⟩))
      (some (GusherNode.mk (mkD "d" true 3 (some ⟨"e", 3, false⟩)) none none))
      none))
    none

/-- The subtree node list of an optional child (empty for a missing
child). -/
def optList : Option GusherNode → List GusherNode
  | some t => nodesList t
  | none => []

/-- Every vertex name of a graph is regex-reproducible. -/
def wordG (G : Graph) : Bool :=
  G.nodes.all wordName

/-- Invariant of the builder's memo table: every entry holds the serialized
form and objective of some solved subtree with at least one child, whose
names are regex-reproducible, whose weights come from the graph, and whose
root is parentless. -/
def MemoInv (G : Graph) (memo : Memo) : Prop :=
  ∀ K s o, lookupMemo memo K = some (s, o) → ∃ t : GusherNode,
    s = write_tree t ∧ o = t.data.obj ∧ wordlikeB t = true ∧
    weightFromB (some (gmOfGraph G)) t = true ∧ t.data.parent = none ∧
    (t.high.isSome ∨ t.low.isSome)

/-- `wordlikeB` as a function of the skeleton alone: regex-reproducible
names are determined by names and shape. -/
def skelWord : Skel → Bool
  | .mk name _ _ (some h) (some l) => wordName name && (skelWord h && skelWord l)
  | .mk name _ _ (some h) none => wordName name && skelWord h
  | .mk name _ _ none (some l) => wordName name && skelWord l
  | .mk name _ _ none none => wordName name

/-- `weightFromB` as a function of the skeleton alone. -/
def skelWeight (gm : Option GusherMap) : Skel → Bool
  | .mk name w _ (some h) (some l) =>
    decide (w = defWeight gm name) && (skelWeight gm h && skelWeight gm l)
  | .mk name w _ (some h) none => decide (w = defWeight gm name) && skelWeight gm h
  | .mk name w _ none (some l) => decide (w = defWeight gm name) && skelWeight gm l
  | .mk name w _ none none => decide (w = defWeight gm name)

/-
Theorems.  General-purpose lemmas first, then one theorem per claim
(with witnesses and counterexamples where applicable).
-/

@[simp] theorem GusherNode.data_mk (d : GData) (h l : Option GusherNode) :
    (GusherNode.mk d h l).data = d := rfl

@[simp] theorem GusherNode.high_mk (d : GData) (h l : Option GusherNode) :
    (GusherNode.mk d h l).high = h := rfl

@[simp] theorem GusherNode.low_mk (d : GData) (h l : Option GusherNode) :
    (GusherNode.mk d h l).low = l := rfl

/-- Structural induction for the nested tree type. -/
theorem nodeInd (motive : GusherNode → Prop)
    (step : ∀ d hi lo, (∀ t, hi = some t → motive t) → (∀ t, lo = some t → motive t) →
      motive (.mk d hi lo)) : ∀ t, motive t
  | .mk d (some h) (some l) =>
    step d (some h) (some l)
      (fun _ ht => (Option.some.inj ht) ▸ nodeInd motive step h)
      (fun _ ht => (Option.some.inj ht) ▸ nodeInd motive step l)
  | .mk d (some h) none =>
    step d (some h) none
      (fun _ ht => (Option.some.inj ht) ▸ nodeInd motive step h)
      (fun _ ht => by cases ht)
  | .mk d none (some l) =>
    step d none (some l)
      (fun _ ht => by cases ht)
      (fun _ ht => (Option.some.inj ht) ▸ nodeInd motive step l)
  | .mk d none none =>
    step d none none (fun _ ht => by cases ht) (fun _ ht => by cases ht)

@[simp] theorem subtreeAt_nil (t : GusherNode) : subtreeAt t [] = some t := by
  obtain ⟨d, hi, lo⟩ := t
  rfl

theorem subtreeAt_cons_true (d : GData) (hi lo : Option GusherNode) (p : List Bool) :
    subtreeAt (.mk d hi lo) (true :: p) =
      match hi with
      | some h => subtreeAt h p
      | none => none := by
  cases hi <;> rfl

theorem subtreeAt_cons_false (d : GData) (hi lo : Option GusherNode) (p : List Bool) :
    subtreeAt (.mk d hi lo) (false :: p) =
      match lo with
      | some l => subtreeAt l p
      | none => none := by
  cases lo <;> rfl

theorem subtreeAt_append (t : GusherNode) (p q : List Bool) :
    subtreeAt t (p ++ q) = (subtreeAt t p).bind (fun a => subtreeAt a q) := by
  induction p generalizing t with
  | nil => simp
  | cons b p ih =>
    obtain ⟨d, hi, lo⟩ := t
    cases b <;> cases hi <;> cases lo <;>
      simp [subtreeAt_cons_true, subtreeAt_cons_false, ih]

theorem subtreeAt_true_some {hi : Option GusherNode} {h : GusherNode}
    (d : GData) (lo : Option GusherNode) (p : List Bool) (hh : hi = some h) :
    subtreeAt (.mk d hi lo) (true :: p) = subtreeAt h p := by
  subst hh
  rfl

theorem subtreeAt_false_some {lo : Option GusherNode} {l : GusherNode}
    (d : GData) (hi : Option GusherNode) (p : List Bool) (hl : lo = some l) :
    subtreeAt (.mk d hi lo) (false :: p) = subtreeAt l p := by
  subst hl
  rfl

theorem AllNodes_node (P : GusherNode → Prop) (d : GData) (hi lo : Option GusherNode) :
    AllNodes P (.mk d hi lo) ↔
      P (.mk d hi lo) ∧ (∀ h, hi = some h → AllNodes P h) ∧
        (∀ l, lo = some l → AllNodes P l) := by
  constructor
  · intro hA
    refine ⟨hA [] _ (by simp), ?_, ?_⟩
    · intro h hh p c hc
      exact hA (true :: p) c (by rw [subtreeAt_true_some d lo p hh]; exact hc)
    · intro l hl p c hc
      exact hA (false :: p) c (by rw [subtreeAt_false_some d hi p hl]; exact hc)
  · rintro ⟨hroot, hH, hL⟩ p c hc
    cases p with
    | nil =>
      rw [subtreeAt_nil, Option.some.injEq] at hc
      exact hc ▸ hroot
    | cons b p' =>
      cases b
      · cases lo with
        | some l =>
          rw [subtreeAt_false_some d hi p' rfl] at hc
          exact hL l rfl p' c hc
        | none => rw [subtreeAt_cons_false] at hc; cases hc
      · cases hi with
        | some h =>
          rw [subtreeAt_true_some d lo p' rfl] at hc
          exact hH h rfl p' c hc
        | none => rw [subtreeAt_cons_true] at hc; cases hc

theorem AllNodes_and (P Q : GusherNode → Prop) (t : GusherNode) :
    AllNodes (fun c => P c ∧ Q c) t ↔ AllNodes P t ∧ AllNodes Q t :=
  ⟨fun h => ⟨fun p c hc => (h p c hc).1, fun p c hc => (h p c hc).2⟩,
   fun h p c hc => ⟨h.1 p c hc, h.2 p c hc⟩⟩

theorem AllNodes_congr {P Q : GusherNode → Prop} (hPQ : ∀ c, P c ↔ Q c) (t : GusherNode) :
    AllNodes P t ↔ AllNodes Q t :=
  ⟨fun h p c hc => (hPQ c).mp (h p c hc), fun h p c hc => (hPQ c).mpr (h p c hc)⟩

theorem RepFreeBy_node (key : GusherNode → String) (d : GData) (hi lo : Option GusherNode) :
    RepFreeBy key (.mk d hi lo) ↔
      (∀ h, hi = some h →
        AllNodes (fun c => key (.mk d hi lo) ≠ key c) h ∧ RepFreeBy key h) ∧
      (∀ l, lo = some l →
        AllNodes (fun c => key (.mk d hi lo) ≠ key c) l ∧ RepFreeBy key l) := by
  constructor
  · intro hR
    constructor
    · intro h hh
      constructor
      · intro p c hc
        exact hR [] true p _ c (by simp)
          (by rw [List.nil_append, subtreeAt_true_some d lo p hh]; exact hc)
      · intro p dd q a c ha hc
        exact hR (true :: p) dd q a c
          (by rw [subtreeAt_true_some d lo p hh]; exact ha)
          (by rw [List.cons_append, subtreeAt_true_some d lo _ hh]; exact hc)
    · intro l hl
      constructor
      · intro p c hc
        exact hR [] false p _ c (by simp)
          (by rw [List.nil_append, subtreeAt_false_some d hi p hl]; exact hc)
      · intro p dd q a c ha hc
        exact hR (false :: p) dd q a c
          (by rw [subtreeAt_false_some d hi p hl]; exact ha)
          (by rw [List.cons_append, subtreeAt_false_some d hi _ hl]; exact hc)
  · rintro ⟨hH, hL⟩ p dd q a c ha hc
    cases p with
    | nil =>
      rw [subtreeAt_nil, Option.some.injEq] at ha
      subst ha
      rw [List.nil_append] at hc
      cases dd
      · cases lo with
        | some l =>
          rw [subtreeAt_false_some d hi q rfl] at hc
          exact (hL l rfl).1 q c hc
        | none => rw [subtreeAt_cons_false] at hc; cases hc
      · cases hi with
        | some h =>
          rw [subtreeAt_true_some d lo q rfl] at hc
          exact (hH h rfl).1 q c hc
        | none => rw [subtreeAt_cons_true] at hc; cases hc
    | cons b p' =>
      rw [List.cons_append] at hc
      cases b
      · cases lo with
        | some l =>
          rw [subtreeAt_false_some d hi p' rfl] at ha
          rw [subtreeAt_false_some d hi _ rfl] at hc
          exact (hL l rfl).2 p' dd q a c ha hc
        | none => rw [subtreeAt_cons_false] at ha; cases ha
      · cases hi with
        | some h =>
          rw [subtreeAt_true_some d lo p' rfl] at ha
          rw [subtreeAt_true_some d lo _ rfl] at hc
          exact (hH h rfl).2 p' dd q a c ha hc
        | none => rw [subtreeAt_cons_true] at ha; cases ha

@[simp] theorem strN_mk (d : GData) (hi lo : Option GusherNode) :
    strN (.mk d hi lo) = String.mk (labelChars d) := rfl

theorem validateRec_node (d : GData) (hi lo : Option GusherNode) (preds : List String) :
    validateRec (.mk d hi lo) preds = true ↔
      (String.mk (labelChars d) ∉ preds ∧
       (∀ h, hi = some h → eqPyRef h.data.parent d = true ∧
          validateRec h (String.mk (labelChars d) :: preds) = true) ∧
       (∀ l, lo = some l → eqPyRef l.data.parent d = true ∧
          validateRec l (String.mk (labelChars d) :: preds) = true) ∧
       (hi = none → lo = none → d.findable = true)) := by
  cases hi <;> cases lo <;>
    simp [validateRec, Bool.and_eq_true, List.elem_iff, and_assoc]

theorem ParentOKPath_node (d : GData) (hi lo : Option GusherNode) :
    ParentOKPath (.mk d hi lo) ↔
      ((∀ h, hi = some h → eqPyRef h.data.parent d = true) ∧
       (∀ l, lo = some l → eqPyRef l.data.parent d = true)) ∧
      (∀ h, hi = some h → ParentOKPath h) ∧
      (∀ l, lo = some l → ParentOKPath l) := by
  have base := AllNodes_node
    (fun c => (∀ h, c.high = some h → eqPyRef h.data.parent c.data = true) ∧
              (∀ l, c.low = some l → eqPyRef l.data.parent c.data = true)) d hi lo
  simp only [GusherNode.high_mk, GusherNode.low_mk, GusherNode.data_mk] at base
  exact base

theorem LeafOKPath_node (d : GData) (hi lo : Option GusherNode) :
    LeafOKPath (.mk d hi lo) ↔
      (hi = none → lo = none → d.findable = true) ∧
      (∀ h, hi = some h → LeafOKPath h) ∧
      (∀ l, lo = some l → LeafOKPath l) := by
  have base := AllNodes_node
    (fun c => c.high = none → c.low = none → c.data.findable = true) d hi lo
  simp only [GusherNode.high_mk, GusherNode.low_mk, GusherNode.data_mk] at base
  exact base

/-- Characterization of the validator walk: success with a given starting
label set means no node label lies in that set, and the tree satisfies the
three path conditions (no label repeated along a path, consistent parent
back-references, findable leaves). -/
theorem validateRec_iff (t : GusherNode) : ∀ preds : List String,
    validateRec t preds = true ↔
      (AllNodes (fun c => strN c ∉ preds) t ∧ RepFreeBy strN t ∧
       ParentOKPath t ∧ LeafOKPath t) := by
  induction t using nodeInd with
  | step d hi lo ihH ihL =>
    intro preds
    rw [validateRec_node, AllNodes_node, RepFreeBy_node, ParentOKPath_node, LeafOKPath_node]
    constructor
    · rintro ⟨hnot, hH, hL, hleaf⟩
      have hroot : strN (GusherNode.mk d hi lo) ∉ preds := by simpa using hnot
      have packH : ∀ h, hi = some h →
          AllNodes (fun c => strN c ∉ preds) h ∧
          AllNodes (fun c => strN (GusherNode.mk d hi lo) ≠ strN c) h ∧
          (RepFreeBy strN h ∧ ParentOKPath h ∧ LeafOKPath h) := by
        intro h hh
        obtain ⟨-, hv⟩ := hH h hh
        obtain ⟨hall, hrep, hpar, hlf⟩ := (ihH h hh (String.mk (labelChars d) :: preds)).mp hv
        refine ⟨?_, ?_, hrep, hpar, hlf⟩
        · intro p c hc
          have hm := hall p c hc
          simp only [List.mem_cons, not_or] at hm
          exact hm.2
        · intro p c hc
          have hm := hall p c hc
          simp only [List.mem_cons, not_or] at hm
          simp only [strN_mk]
          exact fun he => hm.1 he.symm
      have packL : ∀ l, lo = some l →
          AllNodes (fun c => strN c ∉ preds) l ∧
          AllNodes (fun c => strN (GusherNode.mk d hi lo) ≠ strN c) l ∧
          (RepFreeBy strN l ∧ ParentOKPath l ∧ LeafOKPath l) := by
        intro l hl
        obtain ⟨-, hv⟩ := hL l hl
        obtain ⟨hall, hrep, hpar, hlf⟩ := (ihL l hl (String.mk (labelChars d) :: preds)).mp hv
        refine ⟨?_, ?_, hrep, hpar, hlf⟩
        · intro p c hc
          have hm := hall p c hc
          simp only [List.mem_cons, not_or] at hm
          exact hm.2
        · intro p c hc
          have hm := hall p c hc
          simp only [List.mem_cons, not_or] at hm
          simp only [strN_mk]
          exact fun he => hm.1 he.symm
      exact ⟨⟨hroot, fun h hh => (packH h hh).1, fun l hl => (packL l hl).1⟩,
             ⟨fun h hh => ⟨(packH h hh).2.1, (packH h hh).2.2.1⟩,
              fun l hl => ⟨(packL l hl).2.1, (packL l hl).2.2.1⟩⟩,
             ⟨⟨fun h hh => (hH h hh).1, fun l hl => (hL l hl).1⟩,
              fun h hh => (packH h hh).2.2.2.1, fun l hl => (packL l hl).2.2.2.1⟩,
             hleaf, fun h hh => (packH h hh).2.2.2.2, fun l hl => (packL l hl).2.2.2.2⟩
    · rintro ⟨⟨hroot, hHall, hLall⟩, ⟨hHrepA, hLrepA⟩,
              ⟨⟨hHpar, hLpar⟩, hHparR, hLparR⟩, hleaf, hHlf, hLlf⟩
      refine ⟨by simpa using hroot, ?_, ?_, hleaf⟩
      · intro h hh
        refine ⟨hHpar h hh, ?_⟩
        rw [ihH h hh]
        obtain ⟨hne, hrep⟩ := hHrepA h hh
        refine ⟨?_, hrep, hHparR h hh, hHlf h hh⟩
        intro p c hc
        have h1 := hHall h hh p c hc
        have h2 := hne p c hc
        simp only [strN_mk] at h2
        simp only [List.mem_cons, not_or]
        exact ⟨fun he => h2 he.symm, h1⟩
      · intro l hl
        refine ⟨hLpar l hl, ?_⟩
        rw [ihL l hl]
        obtain ⟨hne, hrep⟩ := hLrepA l hl
        refine ⟨?_, hrep, hLparR l hl, hLlf l hl⟩
        intro p c hc
        have h1 := hLall l hl p c hc
        have h2 := hne p c hc
        simp only [strN_mk] at h2
        simp only [List.mem_cons, not_or]
        exact ⟨fun he => h2 he.symm, h1⟩

/-- C4 (counterexample): the claim keys the repetition check on bare node
names, but `validate` keys it on `str(node)`, which appends the `*` marker.
The hand-built tree `a(a*(b,),)` repeats the name `a` on its only path, yet
`validate` accepts it, so success is not equivalent to the claim's three
conditions with name-keyed repetition. -/
theorem c4_counterexample :
    ¬ (validate cexRepeat = true ↔
        RepFreeBy (fun c => c.data.name) cexRepeat ∧ ParentOKPath cexRepeat ∧
          LeafOKPath cexRepeat) := by
  intro hIff
  obtain ⟨hrep, -, -⟩ := hIff.mp (by decide)
  exact (hrep [] true [] _ _ rfl rfl) rfl

/-- C4 (amended): `validate` succeeds iff, on every root-to-leaf path, no
node's label (its name plus the non-findable marker, `str(node)`) is already
among its ancestors' labels, every child's recorded parent back-reference is
`__eq__`-equal to the node holding it, and every childless node is findable.
A failing check is a raised error (here `false`); the tree is never
modified, `validate` being a pure observation of it. -/
theorem c4_validate_iff (t : GusherNode) :
    validate t = true ↔ RepFreeBy strN t ∧ ParentOKPath t ∧ LeafOKPath t := by
  rw [validate, validateRec_iff]
  have triv : AllNodes (fun c => strN c ∉ ([] : List String)) t :=
    fun p c _ => List.not_mem_nil _
  tauto

theorem is_same_iff_skel (t : GusherNode) :
    ∀ u, is_same_tree t (some u) = true ↔ skel t = skel u := by
  induction t using nodeInd with
  | step d hi lo ihH ihL =>
    intro u
    obtain ⟨d', hi', lo'⟩ := u
    cases hi <;> cases lo <;> cases hi' <;> cases lo' <;>
      simp_all [is_same_tree, eqPy, skel, and_assoc]

/-- C10: node equality (`__eq__`) is decided solely by name, weight and
findability — children and other fields do not enter, so two nodes differing
elsewhere (e.g. in `distance`) still compare equal — and any node compares
unequal to a missing node.  Full structural equality (same name, weight,
findability and shape at every position, i.e. equal skeletons) is exactly
`is_same_tree`.  The validator's parent-consistency comparison
`child.parent == node` therefore also holds or fails purely by those three
fields, never by node identity (and fails for a missing back-reference). -/
theorem c10_node_equality :
    (∀ t u : GusherNode, eqPy t (some u) = true ↔
      (t.data.name = u.data.name ∧ t.data.weight = u.data.weight ∧
       t.data.findable = u.data.findable)) ∧
    (∀ t : GusherNode, eqPy t none = false) ∧
    (∀ t u : GusherNode, is_same_tree t (some u) = true ↔ skel t = skel u) ∧
    (∀ (r : PRef) (d : GData), eqPyRef (some r) d = true ↔
      (r.name = d.name ∧ r.weight = d.weight ∧ r.findable = d.findable)) ∧
    (∀ d : GData, eqPyRef none d = false) ∧
    (∃ t u : GusherNode, t.data.distance ≠ u.data.distance ∧ eqPy t (some u) = true) := by
  refine ⟨?_, fun _ => rfl, is_same_iff_skel, ?_, fun _ => rfl, ?_⟩
  · intro t u
    simp [eqPy, Bool.and_eq_true, decide_eq_true_eq, and_assoc]
  · intro r d
    simp [eqPyRef, Bool.and_eq_true, decide_eq_true_eq, and_assoc]
  · exact ⟨GusherNode.mk (mkD "a" true 1 none) none none,
           GusherNode.mk { mkD "a" true 1 none with distance := 2 } none none,
           by decide, by decide⟩

/-- Full description of a successful `add_children` call: the returned node
and attached children, given that each supplied child targets a free slot
and is parentless. -/
theorem add_children_eq (self : GusherNode) (H L : Option GusherNode) (dh dl : ℚ)
    (hH : ∀ h, H = some h → self.high = none ∧ h.data.parent = none)
    (hL : ∀ l, L = some l → self.low = none ∧ l.data.parent = none) :
    add_children self H L dh dl = some (GusherNode.mk
      { self.data with
          size := sizeOpt L + sizeOpt H + (if self.data.findable then 1 else 0)
          total_latency :=
            totLatOpt L + dl * (sizeOpt L : ℚ) + totLatOpt H + dh * (sizeOpt H : ℚ)
          total_risk := totRiskOpt L + totRiskOpt H + self.data.weight *
            (totLatOpt L + dl * (sizeOpt L : ℚ) + totLatOpt H + dh * (sizeOpt H : ℚ)) }
      (H.map (attachTo self.data dh)) (L.map (attachTo self.data dl))) := by
  cases H with
  | none =>
    cases L with
    | none => simp [add_children, sizeOpt, totLatOpt, totRiskOpt]
    | some l =>
      obtain ⟨hl1, hl2⟩ := hL l rfl
      simp [add_children, sizeOpt, totLatOpt, totRiskOpt, hl1, hl2]
  | some h =>
    obtain ⟨hh1, hh2⟩ := hH h rfl
    cases L with
    | none => simp [add_children, sizeOpt, totLatOpt, totRiskOpt, hh1, hh2]
    | some l =>
      obtain ⟨hl1, hl2⟩ := hL l rfl
      simp [add_children, sizeOpt, totLatOpt, totRiskOpt, hh1, hh2, hl1, hl2]

/-- C1: on a successful children-attachment, the node's aggregates become
`size = size(L) + size(H) + (1 if findable)`,
`total_latency = total_latency(L) + dL*size(L) + total_latency(H) + dH*size(H)`,
`total_risk = total_risk(L) + total_risk(H) + weight * total_latency` (with
the just-computed total latency), a missing child contributing 0 throughout.
Every other field of the node (name, findability, weight, parent, distance,
latency, risk, objective) is untouched, and the children change only by
gaining their parent back-reference and distance; the operation returns the
updated node alone, so no ancestor (nor any other node) is modified. -/
theorem c1_aggregates (N : GusherNode) (H L : Option GusherNode) (dh dl : ℚ)
    (hH : ∀ h, H = some h → N.high = none ∧ h.data.parent = none)
    (hL : ∀ l, L = some l → N.low = none ∧ l.data.parent = none) :
    ∃ N', add_children N H L dh dl = some N' ∧
      N'.data.size = sizeOpt L + sizeOpt H + (if N.data.findable then 1 else 0) ∧
      N'.data.total_latency =
        totLatOpt L + dl * (sizeOpt L : ℚ) + totLatOpt H + dh * (sizeOpt H : ℚ) ∧
      N'.data.total_risk =
        totRiskOpt L + totRiskOpt H + N.data.weight * N'.data.total_latency ∧
      N'.data.name = N.data.name ∧ N'.data.findable = N.data.findable ∧
      N'.data.weight = N.data.weight ∧ N'.data.parent = N.data.parent ∧
      N'.data.distance = N.data.distance ∧ N'.data.latency = N.data.latency ∧
      N'.data.risk = N.data.risk ∧ N'.data.obj = N.data.obj ∧
      N'.high = H.map (attachTo N.data dh) ∧ N'.low = L.map (attachTo N.data dl) := by
  refine ⟨_, add_children_eq N H L dh dl hH hL, ?_⟩
  simp

/-- C1 witness: attaching a single high child to a fresh node. -/
theorem c1_witness :
    ∃ N', add_children nodeP (some nodeX) none 2 1 = some N' ∧
      N'.data.size = sizeOpt none + sizeOpt (some nodeX) +
        (if nodeP.data.findable then 1 else 0) ∧
      N'.data.total_latency = totLatOpt none + 1 * (sizeOpt none : ℚ) +
        totLatOpt (some nodeX) + 2 * (sizeOpt (some nodeX) : ℚ) ∧
      N'.data.total_risk = totRiskOpt none + totRiskOpt (some nodeX) +
        nodeP.data.weight * N'.data.total_latency ∧
      N'.data.name = nodeP.data.name ∧ N'.data.findable = nodeP.data.findable ∧
      N'.data.weight = nodeP.data.weight ∧ N'.data.parent = nodeP.data.parent ∧
      N'.data.distance = nodeP.data.distance ∧ N'.data.latency = nodeP.data.latency ∧
      N'.data.risk = nodeP.data.risk ∧ N'.data.obj = nodeP.data.obj ∧
      N'.high = (some nodeX).map (attachTo nodeP.data 2) ∧
      N'.low = (none : Option GusherNode).map (attachTo nodeP.data 1) :=
  c1_aggregates nodeP (some nodeX) none 2 1
    (fun _ hh => by cases hh; exact ⟨rfl, rfl⟩)
    (fun _ hl => by cases hl)

/-- C5: children-attachment fails, returning no tree and overwriting
nothing, whenever a supplied child targets an occupied slot or already has a
parent; with free slots and parentless children it succeeds and sets each
attached child's parent back-reference and distance.  In particular,
attaching the same subtree under a second parent fails at that second
attachment attempt — the child produced by the first attachment carries a
parent back-reference, which the precondition check rejects before any
traversal. -/
theorem c5_attach_precondition (N : GusherNode) (H L : Option GusherNode) (dh dl : ℚ) :
    (∀ h, H = some h → (N.high ≠ none ∨ h.data.parent ≠ none) →
      add_children N H L dh dl = none) ∧
    (∀ l, L = some l → (N.low ≠ none ∨ l.data.parent ≠ none) →
      add_children N H L dh dl = none) ∧
    ((∀ h, H = some h → N.high = none ∧ h.data.parent = none) →
     (∀ l, L = some l → N.low = none ∧ l.data.parent = none) →
     ∃ N', add_children N H L dh dl = some N' ∧
       N'.high = H.map (attachTo N.data dh) ∧ N'.low = L.map (attachTo N.data dl)) ∧
    (∃ P' X', add_children nodeP (some nodeX) none 1 1 = some P' ∧
      P'.high = some X' ∧ add_children nodeQ (some X') none 1 1 = none) := by
  refine ⟨?_, ?_, ?_, ?_⟩
  · rintro h rfl hbad
    rcases hbad with hb | hb
    · obtain ⟨x, hx⟩ := Option.ne_none_iff_exists'.mp hb
      simp [add_children, hx]
    · obtain ⟨r, hr⟩ := Option.ne_none_iff_exists'.mp hb
      simp [add_children, hr]
  · rintro l rfl hbad
    rcases hbad with hb | hb
    · obtain ⟨x, hx⟩ := Option.ne_none_iff_exists'.mp hb
      simp [add_children, hx]
    · obtain ⟨r, hr⟩ := Option.ne_none_iff_exists'.mp hb
      simp [add_children, hr]
  · intro hH hL
    exact ⟨_, add_children_eq N H L dh dl hH hL, by simp⟩
  · have hfirst := add_children_eq nodeP (some nodeX) none 1 1
      (fun _ hh => by cases hh; exact ⟨rfl, rfl⟩) (fun _ hl => by cases hl)
    refine ⟨_, attachTo nodeP.data 1 nodeX, hfirst, rfl, ?_⟩
    simp [add_children, attachTo, nodeP, nodeX, initNode]

/-- C5 witness: the second attachment of the already-attached `X` fails. -/
theorem c5_witness : add_children nodeQ (some (attachTo nodeP.data 1 nodeX)) none 1 1 = none :=
  (c5_attach_precondition nodeQ (some (attachTo nodeP.data 1 nodeX)) none 1 1).1
    (attachTo nodeP.data 1 nodeX) rfl (Or.inr (by decide))

/-- C4 witness: the amended equivalence evaluated on a concrete accepted
tree. -/
theorem c4_witness : RepFreeBy strN cexRepeat ∧ ParentOKPath cexRepeat ∧ LeafOKPath cexRepeat :=
  (c4_validate_iff cexRepeat).mp (by decide)

/-- C10 witness: the structural-equality characterization evaluated on a
concrete tree. -/
theorem c10_witness : skel cexRepeat = skel cexRepeat :=
  (c10_node_equality.2.2.1 cexRepeat cexRepeat).mp (by decide)

theorem updRec_node (gm : Option GusherMap) (start : String) (d : GData)
    (hi lo : Option GusherNode) (pl pw : ℚ) (pinfo : Option (String × ℚ)) :
    updRec gm start (.mk d hi lo) pl pw pinfo =
      GusherNode.mk (updData gm start d pl pw pinfo)
        (hi.map fun h => updRec gm start h (updData gm start d pl pw pinfo).latency
          (pw + d.weight) (some (d.name, (updData gm start d pl pw pinfo).risk)))
        (lo.map fun l => updRec gm start l (updData gm start d pl pw pinfo).latency
          (pw + d.weight) (some (d.name, (updData gm start d pl pw pinfo).risk))) := by
  cases hi <;> cases lo <;> rfl

@[simp] theorem updData_name (gm : Option GusherMap) (start : String) (d : GData)
    (pl pw : ℚ) (pinfo : Option (String × ℚ)) :
    (updData gm start d pl pw pinfo).name = d.name := by
  cases pinfo with
  | none => cases gm <;> rfl
  | some x => obtain ⟨pn, pr⟩ := x; rfl

@[simp] theorem updData_findable (gm : Option GusherMap) (start : String) (d : GData)
    (pl pw : ℚ) (pinfo : Option (String × ℚ)) :
    (updData gm start d pl pw pinfo).findable = d.findable := by
  cases pinfo with
  | none => cases gm <;> rfl
  | some x => obtain ⟨pn, pr⟩ := x; rfl

@[simp] theorem updData_weight (gm : Option GusherMap) (start : String) (d : GData)
    (pl pw : ℚ) (pinfo : Option (String × ℚ)) :
    (updData gm start d pl pw pinfo).weight = d.weight := by
  cases pinfo with
  | none => cases gm <;> rfl
  | some x => obtain ⟨pn, pr⟩ := x; rfl

@[simp] theorem updData_parent (gm : Option GusherMap) (start : String) (d : GData)
    (pl pw : ℚ) (pinfo : Option (String × ℚ)) :
    (updData gm start d pl pw pinfo).parent = d.parent := by
  cases pinfo with
  | none => cases gm <;> rfl
  | some x => obtain ⟨pn, pr⟩ := x; rfl

@[simp] theorem updData_size (gm : Option GusherMap) (start : String) (d : GData)
    (pl pw : ℚ) (pinfo : Option (String × ℚ)) :
    (updData gm start d pl pw pinfo).size = d.size := by
  cases pinfo with
  | none => cases gm <;> rfl
  | some x => obtain ⟨pn, pr⟩ := x; rfl

@[simp] theorem updData_obj (gm : Option GusherMap) (start : String) (d : GData)
    (pl pw : ℚ) (pinfo : Option (String × ℚ)) :
    (updData gm start d pl pw pinfo).obj = d.obj := by
  cases pinfo with
  | none => cases gm <;> rfl
  | some x => obtain ⟨pn, pr⟩ := x; rfl

theorem updData_some (gm : Option GusherMap) (start : String) (d : GData)
    (pl pw : ℚ) (pn : String) (pr : ℚ) :
    updData gm start d pl pw (some (pn, pr)) =
      { d with distance := match gm with
                 | some m => m.distance pn d.name
                 | none => d.distance
               latency := pl + (match gm with
                 | some m => m.distance pn d.name
                 | none => d.distance)
               risk := pr + pw * (match gm with
                 | some m => m.distance pn d.name
                 | none => d.distance) } := rfl

theorem pathWeightIncl_updRec (gm : Option GusherMap) (start : String) :
    ∀ (q : List Bool) (t : GusherNode) (pl pw : ℚ) (pinfo : Option (String × ℚ)),
    pathWeightIncl (updRec gm start t pl pw pinfo) q = pathWeightIncl t q := by
  intro q
  induction q with
  | nil =>
    intro t pl pw pinfo
    obtain ⟨d, hi, lo⟩ := t
    rw [updRec_node]
    simp [pathWeightIncl]
  | cons b q ih =>
    intro t pl pw pinfo
    obtain ⟨d, hi, lo⟩ := t
    rw [updRec_node]
    cases b <;> cases hi <;> cases lo <;> simp [pathWeightIncl, ih]

/-- Parent-child cost relation established by the `update_costs` recursion,
for arbitrary recursion state: every child's latency is its parent's latency
plus its distance, its risk is the parent's risk plus the accumulated
predecessor weight times its distance, and its distance is refreshed from
the gusher map (or kept) as the source does. -/
theorem updRec_child_rel (gm : Option GusherMap) (start : String) :
    ∀ (q : List Bool) (t : GusherNode) (pl pw : ℚ) (pinfo : Option (String × ℚ))
      (dd : Bool) (c : GusherNode),
      subtreeAt (updRec gm start t pl pw pinfo) (q ++ [dd]) = some c →
      ∃ u, subtreeAt (updRec gm start t pl pw pinfo) q = some u ∧
        c.data.latency = u.data.latency + c.data.distance ∧
        c.data.risk = u.data.risk + (pw + pathWeightIncl t q) * c.data.distance ∧
        (∀ m, gm = some m → c.data.distance = m.distance u.data.name c.data.name) ∧
        (gm = none → ∃ c₀, subtreeAt t (q ++ [dd]) = some c₀ ∧
          c.data.distance = c₀.data.distance) := by
  intro q
  induction q with
  | nil =>
    intro t pl pw pinfo dd c hc
    obtain ⟨d, hi, lo⟩ := t
    cases dd
    · cases lo with
      | none =>
        rw [updRec_node, List.nil_append, subtreeAt_cons_false] at hc
        simp at hc
      | some l =>
        obtain ⟨dl, hl, ll⟩ := l
        rw [updRec_node] at hc ⊢
        simp only [Option.map_some'] at hc ⊢
        rw [List.nil_append, subtreeAt_false_some _ _ _ rfl, subtreeAt_nil,
            Option.some.injEq] at hc
        subst hc
        refine ⟨_, by rw [subtreeAt_nil], ?_, ?_, ?_, ?_⟩
        · rw [updRec_node]
          simp [updData_some]
        · rw [updRec_node]
          simp [updData_some, pathWeightIncl]
        · intro m hm
          subst hm
          rw [updRec_node]
          simp [updData_some]
        · intro hm
          subst hm
          rw [updRec_node]
          refine ⟨_, by rw [List.nil_append, subtreeAt_false_some _ _ _ rfl, subtreeAt_nil], ?_⟩
          simp [updData_some]
    · cases hi with
      | none =>
        rw [updRec_node, List.nil_append, subtreeAt_cons_true] at hc
        simp at hc
      | some h =>
        obtain ⟨dh, hh, lh⟩ := h
        rw [updRec_node] at hc ⊢
        simp only [Option.map_some'] at hc ⊢
        rw [List.nil_append, subtreeAt_true_some _ _ _ rfl, subtreeAt_nil,
            Option.some.injEq] at hc
        subst hc
        refine ⟨_, by rw [subtreeAt_nil], ?_, ?_, ?_, ?_⟩
        · rw [updRec_node]
          simp [updData_some]
        · rw [updRec_node]
          simp [updData_some, pathWeightIncl]
        · intro m hm
          subst hm
          rw [updRec_node]
          simp [updData_some]
        · intro hm
          subst hm
          rw [updRec_node]
          refine ⟨_, by rw [List.nil_append, subtreeAt_true_some _ _ _ rfl, subtreeAt_nil], ?_⟩
          simp [updData_some]
  | cons b q ih =>
    intro t pl pw pinfo dd c hc
    obtain ⟨d, hi, lo⟩ := t
    cases b
    · cases lo with
      | none =>
        rw [updRec_node, List.cons_append, subtreeAt_cons_false] at hc
        simp at hc
      | some l =>
        rw [updRec_node] at hc ⊢
        simp only [Option.map_some'] at hc ⊢
        rw [List.cons_append, subtreeAt_false_some _ _ _ rfl] at hc
        rw [subtreeAt_false_some _ _ _ rfl]
        obtain ⟨u, hu, h1, h2, h3, h4⟩ := ih l _ _ _ dd c hc
        refine ⟨u, hu, h1, ?_, h3, ?_⟩
        · rw [h2]
          simp only [pathWeightIncl]
          ring
        · intro hgm
          obtain ⟨c₀, hc₀, hd⟩ := h4 hgm
          refine ⟨c₀, ?_, hd⟩
          rw [List.cons_append, subtreeAt_false_some d hi _ rfl]
          exact hc₀
    · cases hi with
      | none =>
        rw [updRec_node, List.cons_append, subtreeAt_cons_true] at hc
        simp at hc
      | some h =>
        rw [updRec_node] at hc ⊢
        simp only [Option.map_some'] at hc ⊢
        rw [List.cons_append, subtreeAt_true_some _ _ _ rfl] at hc
        rw [subtreeAt_true_some _ _ _ rfl]
        obtain ⟨u, hu, h1, h2, h3, h4⟩ := ih h _ _ _ dd c hc
        refine ⟨u, hu, h1, ?_, h3, ?_⟩
        · rw [h2]
          simp only [pathWeightIncl]
          ring
        · intro hgm
          obtain ⟨c₀, hc₀, hd⟩ := h4 hgm
          refine ⟨c₀, ?_, hd⟩
          rw [List.cons_append, subtreeAt_true_some d lo _ rfl]
          exact hc₀

/-- C2: after the top-down cost refresh, the root has risk 0 and latency
equal to the map distance from the start point to the root (0 without a
map), and its total latency has gained `latency * size`; every non-root node
has `latency = parent.latency + distance` and
`risk = parent.risk + (sum of weights of all strict ancestors) * distance`,
with `distance` re-read from the gusher map between the parent's name and
the node's name when a map is supplied, and kept at its prior value
otherwise.  Here the parent is the node holding the child (which is where
the recorded back-reference of every `add_children`-built tree points), and
the ancestor weight sum is over positions strictly above the child. -/
theorem c2_cost_refresh (gm : Option GusherMap) (start : String) (T : GusherNode) :
    ((update_costs gm start T).data.risk = 0 ∧
     (update_costs gm start T).data.latency = (match gm with
        | some m => m.distance start T.data.name
        | none => 0) ∧
     (update_costs gm start T).data.total_latency =
       T.data.total_latency +
         (update_costs gm start T).data.latency * (T.data.size : ℚ)) ∧
    (∀ q dd c, subtreeAt (update_costs gm start T) (q ++ [dd]) = some c →
      ∃ u, subtreeAt (update_costs gm start T) q = some u ∧
        c.data.latency = u.data.latency + c.data.distance ∧
        c.data.risk = u.data.risk +
          pathWeightIncl (update_costs gm start T) q * c.data.distance ∧
        (∀ m, gm = some m → c.data.distance = m.distance u.data.name c.data.name) ∧
        (gm = none → ∃ c₀, subtreeAt T (q ++ [dd]) = some c₀ ∧
          c.data.distance = c₀.data.distance)) := by
  constructor
  · obtain ⟨d, hi, lo⟩ := T
    rw [update_costs, updRec_node]
    cases gm with
    | none => simp [updData]
    | some m => simp [updData]
  · intro q dd c hc
    obtain ⟨u, hu, h1, h2, h3, h4⟩ :=
      updRec_child_rel gm start q T 0 0 none dd c hc
    refine ⟨u, hu, h1, ?_, h3, h4⟩
    rw [h2, update_costs, pathWeightIncl_updRec, zero_add]

/-- C2 witness: the refresh evaluated on a concrete three-node tree with no
gusher map. -/
theorem c2_witness :
    (update_costs none "basket" cexRepeat).data.risk = 0 ∧
    ∃ c, subtreeAt (update_costs none "basket" cexRepeat) [true] = some c ∧
    ∃ u, subtreeAt (update_costs none "basket" cexRepeat) [] = some u ∧
      c.data.latency = u.data.latency + c.data.distance := by
  refine ⟨(c2_cost_refresh none "basket" cexRepeat).1.1, ?_⟩
  obtain ⟨c, hc⟩ : ∃ c, subtreeAt (update_costs none "basket" cexRepeat) [true] = some c :=
    ⟨_, rfl⟩
  obtain ⟨u, hu, hlat, -, -, -⟩ :=
    (c2_cost_refresh none "basket" cexRepeat).2 [] true c hc
  exact ⟨c, hc, u, hu, hlat⟩

@[simp] theorem updData_none_distance (gm : Option GusherMap) (start : String)
    (d : GData) (pl pw : ℚ) :
    (updData gm start d pl pw none).distance = d.distance := by
  cases gm <;> rfl

@[simp] theorem updData_none_risk (gm : Option GusherMap) (start : String)
    (d : GData) (pl pw : ℚ) :
    (updData gm start d pl pw none).risk = 0 := by
  cases gm <;> rfl

@[simp] theorem updData_none_totrisk (gm : Option GusherMap) (start : String)
    (d : GData) (pl pw : ℚ) :
    (updData gm start d pl pw none).total_risk = d.total_risk := by
  cases gm <;> rfl

theorem updData_none_latency (gm : Option GusherMap) (start : String)
    (d : GData) (pl pw : ℚ) :
    (updData gm start d pl pw none).latency = (match gm with
      | some m => m.distance start d.name
      | none => 0) := by
  cases gm <;> rfl

theorem updData_some_totlat (gm : Option GusherMap) (start : String)
    (d : GData) (pl pw : ℚ) (pn : String) (pr : ℚ) :
    (updData gm start d pl pw (some (pn, pr))).total_latency = d.total_latency := by
  cases gm <;> rfl

theorem updData_some_totrisk (gm : Option GusherMap) (start : String)
    (d : GData) (pl pw : ℚ) (pn : String) (pr : ℚ) :
    (updData gm start d pl pw (some (pn, pr))).total_risk = d.total_risk := by
  cases gm <;> rfl

theorem updData_some_congr (gm : Option GusherMap) (start : String)
    (pl pw : ℚ) (pn : String) (pr : ℚ) (da db : GData)
    (h1 : da.name = db.name) (h2 : da.findable = db.findable)
    (h3 : da.weight = db.weight) (h4 : da.parent = db.parent)
    (h5 : da.size = db.size) (h6 : da.obj = db.obj)
    (h7 : da.total_latency = db.total_latency) (h8 : da.total_risk = db.total_risk)
    (h9 : gm = none → da.distance = db.distance) :
    updData gm start da pl pw (some (pn, pr)) = updData gm start db pl pw (some (pn, pr)) := by
  cases gm with
  | none =>
    have h9' := h9 rfl
    cases da
    cases db
    simp_all [updData_some]
  | some m =>
    cases da
    cases db
    simp_all [updData_some]

theorem agreeX_updRec_self (gm : Option GusherMap) (start : String) :
    ∀ (c : GusherNode) (pl pw : ℚ) (pn : String) (pr : ℚ),
      agreeX gm.isNone c (updRec gm start c pl pw (some (pn, pr))) := by
  intro c
  induction c using nodeInd with
  | step d hi lo ihH ihL =>
    intro pl pw pn pr
    rw [updRec_node]
    have hdist : gm.isNone = true →
        d.distance = (updData gm start d pl pw (some (pn, pr))).distance := by
      intro hnd
      cases gm with
      | some m => simp at hnd
      | none => rfl
    cases hi with
    | none =>
      cases lo with
      | none =>
        simp only [Option.map_none']
        simp only [agreeX]
        exact ⟨(updData_name _ _ _ _ _ _).symm, (updData_findable _ _ _ _ _ _).symm,
          (updData_weight _ _ _ _ _ _).symm, (updData_parent _ _ _ _ _ _).symm,
          (updData_size _ _ _ _ _ _).symm, (updData_obj _ _ _ _ _ _).symm,
          (updData_some_totlat _ _ _ _ _ _ _).symm,
          (updData_some_totrisk _ _ _ _ _ _ _).symm, hdist⟩
      | some l =>
        simp only [Option.map_some', Option.map_none']
        simp only [agreeX]
        exact ⟨(updData_name _ _ _ _ _ _).symm, (updData_findable _ _ _ _ _ _).symm,
          (updData_weight _ _ _ _ _ _).symm, (updData_parent _ _ _ _ _ _).symm,
          (updData_size _ _ _ _ _ _).symm, (updData_obj _ _ _ _ _ _).symm,
          (updData_some_totlat _ _ _ _ _ _ _).symm,
          (updData_some_totrisk _ _ _ _ _ _ _).symm, hdist, ihL l rfl _ _ _ _⟩
    | some h =>
      cases lo with
      | none =>
        simp only [Option.map_some', Option.map_none']
        simp only [agreeX]
        exact ⟨(updData_name _ _ _ _ _ _).symm, (updData_findable _ _ _ _ _ _).symm,
          (updData_weight _ _ _ _ _ _).symm, (updData_parent _ _ _ _ _ _).symm,
          (updData_size _ _ _ _ _ _).symm, (updData_obj _ _ _ _ _ _).symm,
          (updData_some_totlat _ _ _ _ _ _ _).symm,
          (updData_some_totrisk _ _ _ _ _ _ _).symm, hdist, ihH h rfl _ _ _ _⟩
      | some l =>
        simp only [Option.map_some']
        simp only [agreeX]
        exact ⟨(updData_name _ _ _ _ _ _).symm, (updData_findable _ _ _ _ _ _).symm,
          (updData_weight _ _ _ _ _ _).symm, (updData_parent _ _ _ _ _ _).symm,
          (updData_size _ _ _ _ _ _).symm, (updData_obj _ _ _ _ _ _).symm,
          (updData_some_totlat _ _ _ _ _ _ _).symm,
          (updData_some_totrisk _ _ _ _ _ _ _).symm, hdist,
          ihH h rfl _ _ _ _, ihL l rfl _ _ _ _⟩

theorem updRec_congr (gm : Option GusherMap) (start : String) :
    ∀ a b : GusherNode, agreeX gm.isNone a b →
      ∀ (pl pw : ℚ) (pn : String) (pr : ℚ),
      updRec gm start a pl pw (some (pn, pr)) = updRec gm start b pl pw (some (pn, pr)) := by
  intro a
  induction a using nodeInd with
  | step d hi lo ihH ihL =>
    intro b hag pl pw pn pr
    obtain ⟨d', hi', lo'⟩ := b
    cases hi with
    | none =>
      cases lo with
      | none =>
        cases hi' with
        | none =>
          cases lo' with
          | none =>
            simp only [agreeX] at hag
            obtain ⟨e1, e2, e3, e4, e5, e6, e7, e8, e9⟩ := hag
            rw [updRec_node, updRec_node,
              updData_some_congr gm start pl pw pn pr d d' e1 e2 e3 e4 e5 e6 e7 e8
                (fun hg => e9 (by simp [hg]))]
            simp only [Option.map_none']
          | some l' => exact absurd hag (by simp [agreeX])
        | some h' => exact absurd hag (by simp [agreeX])
      | some l =>
        cases hi' with
        | none =>
          cases lo' with
          | some l' =>
            simp only [agreeX] at hag
            obtain ⟨e1, e2, e3, e4, e5, e6, e7, e8, e9, hcl⟩ := hag
            rw [updRec_node, updRec_node]
            simp only [Option.map_some', Option.map_none']
            rw [updData_some_congr gm start pl pw pn pr d d' e1 e2 e3 e4 e5 e6 e7 e8
                  (fun hg => e9 (by simp [hg])),
                e1, e3, ihL l rfl l' hcl]
          | none => exact absurd hag (by simp [agreeX])
        | some h' => exact absurd hag (by simp [agreeX])
    | some h =>
      cases lo with
      | none =>
        cases hi' with
        | some h' =>
          cases lo' with
          | none =>
            simp only [agreeX] at hag
            obtain ⟨e1, e2, e3, e4, e5, e6, e7, e8, e9, hch⟩ := hag
            rw [updRec_node, updRec_node]
            simp only [Option.map_some', Option.map_none']
            rw [updData_some_congr gm start pl pw pn pr d d' e1 e2 e3 e4 e5 e6 e7 e8
                  (fun hg => e9 (by simp [hg])),
                e1, e3, ihH h rfl h' hch]
          | some l' => exact absurd hag (by simp [agreeX])
        | none => exact absurd hag (by simp [agreeX])
      | some l =>
        cases hi' with
        | some h' =>
          cases lo' with
          | some l' =>
            simp only [agreeX] at hag
            obtain ⟨e1, e2, e3, e4, e5, e6, e7, e8, e9, hch, hcl⟩ := hag
            rw [updRec_node, updRec_node]
            simp only [Option.map_some']
            rw [updData_some_congr gm start pl pw pn pr d d' e1 e2 e3 e4 e5 e6 e7 e8
                  (fun hg => e9 (by simp [hg])),
                e1, e3, ihH h rfl h' hch, ihL l rfl l' hcl]
          | none => exact absurd hag (by simp [agreeX])
        | none => exact absurd hag (by simp [agreeX])

theorem nodesList_node (d : GData) (hi lo : Option GusherNode) :
    nodesList (.mk d hi lo) = .mk d hi lo :: (optList hi ++ optList lo) := by
  cases hi <;> cases lo <;> simp [nodesList, optList]

theorem sums_congr (x y : GData) (hi lo : Option GusherNode)
    (hf : x.findable = y.findable) (hl : x.latency = y.latency) (hr : x.risk = y.risk) :
    ((((nodesList (.mk x hi lo)).filter (fun n => n.data.findable)).map
        (fun n => n.data.latency)).sum =
      (((nodesList (.mk y hi lo)).filter (fun n => n.data.findable)).map
        (fun n => n.data.latency)).sum) ∧
    ((((nodesList (.mk x hi lo)).filter (fun n => n.data.findable)).map
        (fun n => n.data.risk)).sum =
      (((nodesList (.mk y hi lo)).filter (fun n => n.data.findable)).map
        (fun n => n.data.risk)).sum) := by
  rw [nodesList_node, nodesList_node]
  constructor <;>
  · rw [List.filter_cons, List.filter_cons]
    simp only [GusherNode.data_mk, hf]
    rcases Bool.eq_false_or_eq_true y.findable with hy | hy <;> simp [hy, hl, hr]

theorem calc_node (gm : Option GusherMap) (start : String) (d : GData)
    (hi lo : Option GusherNode) :
    calc_tree_score gm start (.mk d hi lo) =
      (fun HI LO =>
        GusherNode.mk
          { updData gm start d 0 0 none with
              total_latency := (((nodesList (GusherNode.mk (updData gm start d 0 0 none) HI LO)).filter
                (fun n => n.data.findable)).map (fun n => n.data.latency)).sum
              total_risk := (((nodesList (GusherNode.mk (updData gm start d 0 0 none) HI LO)).filter
                (fun n => n.data.findable)).map (fun n => n.data.risk)).sum }
          HI LO)
        (hi.map fun h => updRec gm start h (updData gm start d 0 0 none).latency (0 + d.weight)
          (some (d.name, (updData gm start d 0 0 none).risk)))
        (lo.map fun l => updRec gm start l (updData gm start d 0 0 none).latency (0 + d.weight)
          (some (d.name, (updData gm start d 0 0 none).risk))) := by
  cases hi <;> cases lo <;> rfl

theorem calc_congr (gm : Option GusherMap) (start : String) (a b : GusherNode)
    (hag : agreeTop gm.isNone a b) :
    calc_tree_score gm start a = calc_tree_score gm start b := by
  obtain ⟨da, hia, loa⟩ := a
  obtain ⟨db, hib, lob⟩ := b
  cases hia with
  | none =>
    cases loa with
    | none =>
      cases hib with
      | none =>
        cases lob with
        | none =>
          simp only [agreeTop] at hag
          obtain ⟨e1, e2, e3, e4, e5, e6, e7⟩ := hag
          rw [calc_node, calc_node]
          simp only [Option.map_none']
          have hlat : (updData gm start da 0 0 none).latency =
              (updData gm start db 0 0 none).latency := by
            rw [updData_none_latency, updData_none_latency, e1]
          have hsum := sums_congr (updData gm start da 0 0 none)
            (updData gm start db 0 0 none) none none
            (by simp [e2]) hlat (by simp)
          simp only [updData_none_risk, zero_add] at hsum
          congr 1
          refine GData.ext ?_ ?_ ?_ ?_ ?_ ?_ ?_ ?_ ?_ ?_ ?_ <;>
            simp [e1, e2, e3, e4, e5, e6, e7, hlat, hsum.1, hsum.2]
        | some l' => exact absurd hag (by simp [agreeTop])
      | some h' => exact absurd hag (by simp [agreeTop])
    | some l =>
      cases hib with
      | none =>
        cases lob with
        | some l' =>
          simp only [agreeTop] at hag
          obtain ⟨e1, e2, e3, e4, e5, e6, e7, hcl⟩ := hag
          rw [calc_node, calc_node]
          simp only [Option.map_some', Option.map_none']
          have hlat : (updData gm start da 0 0 none).latency =
              (updData gm start db 0 0 none).latency := by
            rw [updData_none_latency, updData_none_latency, e1]
          have hCl : updRec gm start l (updData gm start da 0 0 none).latency
              (0 + da.weight) (some (da.name, (updData gm start da 0 0 none).risk)) =
              updRec gm start l' (updData gm start db 0 0 none).latency
              (0 + db.weight) (some (db.name, (updData gm start db 0 0 none).risk)) := by
            rw [hlat, updData_none_risk, updData_none_risk, e1, e3]
            exact updRec_congr gm start l l' hcl _ _ _ _
          rw [hCl]
          have hsum := sums_congr (updData gm start da 0 0 none)
            (updData gm start db 0 0 none) none
            (some (updRec gm start l' (updData gm start db 0 0 none).latency
              (0 + db.weight) (some (db.name, (updData gm start db 0 0 none).risk))))
            (by simp [e2]) hlat (by simp)
          simp only [updData_none_risk, zero_add] at hsum
          congr 1
          refine GData.ext ?_ ?_ ?_ ?_ ?_ ?_ ?_ ?_ ?_ ?_ ?_ <;>
            simp [e1, e2, e3, e4, e5, e6, e7, hlat, hsum.1, hsum.2]
        | none => exact absurd hag (by simp [agreeTop])
      | some h' => exact absurd hag (by simp [agreeTop])
  | some h =>
    cases loa with
    | none =>
      cases hib with
      | some h' =>
        cases lob with
        | none =>
          simp only [agreeTop] at hag
          obtain ⟨e1, e2, e3, e4, e5, e6, e7, hch⟩ := hag
          rw [calc_node, calc_node]
          simp only [Option.map_some', Option.map_none']
          have hlat : (updData gm start da 0 0 none).latency =
              (updData gm start db 0 0 none).latency := by
            rw [updData_none_latency, updData_none_latency, e1]
          have hCh : updRec gm start h (updData gm start da 0 0 none).latency
              (0 + da.weight) (some (da.name, (updData gm start da 0 0 none).risk)) =
              updRec gm start h' (updData gm start db 0 0 none).latency
              (0 + db.weight) (some (db.name, (updData gm start db 0 0 none).risk)) := by
            rw [hlat, updData_none_risk, updData_none_risk, e1, e3]
            exact updRec_congr gm start h h' hch _ _ _ _
          rw [hCh]
          have hsum := sums_congr (updData gm start da 0 0 none)
            (updData gm start db 0 0 none)
            (some (updRec gm start h' (updData gm start db 0 0 none).latency
              (0 + db.weight) (some (db.name, (updData gm start db 0 0 none).risk))))
            none
            (by simp [e2]) hlat (by simp)
          simp only [updData_none_risk, zero_add] at hsum
          congr 1
          refine GData.ext ?_ ?_ ?_ ?_ ?_ ?_ ?_ ?_ ?_ ?_ ?_ <;>
            simp [e1, e2, e3, e4, e5, e6, e7, hlat, hsum.1, hsum.2]
        | some l' => exact absurd hag (by simp [agreeTop])
      | none => exact absurd hag (by simp [agreeTop])
    | some l =>
      cases hib with
      | some h' =>
        cases lob with
        | some l' =>
          simp only [agreeTop] at hag
          obtain ⟨e1, e2, e3, e4, e5, e6, e7, hch, hcl⟩ := hag
          rw [calc_node, calc_node]
          simp only [Option.map_some']
          have hlat : (updData gm start da 0 0 none).latency =
              (updData gm start db 0 0 none).latency := by
            rw [updData_none_latency, updData_none_latency, e1]
          have hCh : updRec gm start h (updData gm start da 0 0 none).latency
              (0 + da.weight) (some (da.name, (updData gm start da 0 0 none).risk)) =
              updRec gm start h' (updData gm start db 0 0 none).latency
              (0 + db.weight) (some (db.name, (updData gm start db 0 0 none).risk)) := by
            rw [hlat, updData_none_risk, updData_none_risk, e1, e3]
            exact updRec_congr gm start h h' hch _ _ _ _
          have hCl : updRec gm start l (updData gm start da 0 0 none).latency
              (0 + da.weight) (some (da.name, (updData gm start da 0 0 none).risk)) =
              updRec gm start l' (updData gm start db 0 0 none).latency
              (0 + db.weight) (some (db.name, (updData gm start db 0 0 none).risk)) := by
            rw [hlat, updData_none_risk, updData_none_risk, e1, e3]
            exact updRec_congr gm start l l' hcl _ _ _ _
          rw [hCh, hCl]
          have hsum := sums_congr (updData gm start da 0 0 none)
            (updData gm start db 0 0 none)
            (some (updRec gm start h' (updData gm start db 0 0 none).latency
              (0 + db.weight) (some (db.name, (updData gm start db 0 0 none).risk))))
            (some (updRec gm start l' (updData gm start db 0 0 none).latency
              (0 + db.weight) (some (db.name, (updData gm start db 0 0 none).risk))))
            (by simp [e2]) hlat (by simp)
          simp only [updData_none_risk, zero_add] at hsum
          congr 1
          refine GData.ext ?_ ?_ ?_ ?_ ?_ ?_ ?_ ?_ ?_ ?_ ?_ <;>
            simp [e1, e2, e3, e4, e5, e6, e7, hlat, hsum.1, hsum.2]
        | none => exact absurd hag (by simp [agreeTop])
      | none => exact absurd hag (by simp [agreeTop])

theorem agreeTop_calc_self (gm : Option GusherMap) (start : String) (T : GusherNode) :
    agreeTop gm.isNone T (calc_tree_score gm start T) := by
  obtain ⟨d, hi, lo⟩ := T
  rw [calc_node]
  cases hi with
  | none =>
    cases lo with
    | none =>
      simp only [Option.map_none']
      simp only [agreeTop]
      exact ⟨(updData_name _ _ _ _ _ _).symm, (updData_findable _ _ _ _ _ _).symm,
        (updData_weight _ _ _ _ _ _).symm, (updData_parent _ _ _ _ _ _).symm,
        (updData_size _ _ _ _ _ _).symm, (updData_obj _ _ _ _ _ _).symm,
        (updData_none_distance _ _ _ _ _).symm⟩
    | some l =>
      simp only [Option.map_some', Option.map_none']
      simp only [agreeTop]
      exact ⟨(updData_name _ _ _ _ _ _).symm, (updData_findable _ _ _ _ _ _).symm,
        (updData_weight _ _ _ _ _ _).symm, (updData_parent _ _ _ _ _ _).symm,
        (updData_size _ _ _ _ _ _).symm, (updData_obj _ _ _ _ _ _).symm,
        (updData_none_distance _ _ _ _ _).symm, agreeX_updRec_self gm start l _ _ _ _⟩
  | some h =>
    cases lo with
    | none =>
      simp only [Option.map_some', Option.map_none']
      simp only [agreeTop]
      exact ⟨(updData_name _ _ _ _ _ _).symm, (updData_findable _ _ _ _ _ _).symm,
        (updData_weight _ _ _ _ _ _).symm, (updData_parent _ _ _ _ _ _).symm,
        (updData_size _ _ _ _ _ _).symm, (updData_obj _ _ _ _ _ _).symm,
        (updData_none_distance _ _ _ _ _).symm, agreeX_updRec_self gm start h _ _ _ _⟩
    | some l =>
      simp only [Option.map_some']
      simp only [agreeTop]
      exact ⟨(updData_name _ _ _ _ _ _).symm, (updData_findable _ _ _ _ _ _).symm,
        (updData_weight _ _ _ _ _ _).symm, (updData_parent _ _ _ _ _ _).symm,
        (updData_size _ _ _ _ _ _).symm, (updData_obj _ _ _ _ _ _).symm,
        (updData_none_distance _ _ _ _ _).symm, agreeX_updRec_self gm start h _ _ _ _,
        agreeX_updRec_self gm start l _ _ _ _⟩

/-- C8: the top-down cost refresh of spec section 4.1 (`update_costs`
followed by the whole-tree total recomputation, i.e. `calc_tree_score`) is
idempotent: a second run with the same gusher map and start point leaves
every per-node and whole-tree field exactly as the first run did. -/
theorem c8_refresh_idempotent (gm : Option GusherMap) (start : String) (T : GusherNode) :
    calc_tree_score gm start (calc_tree_score gm start T) = calc_tree_score gm start T :=
  (calc_congr gm start T (calc_tree_score gm start T) (agreeTop_calc_self gm start T)).symm

theorem dropWhile_append_all {p : Char → Bool} (l1 l2 : List Char)
    (h : ∀ c ∈ l1, p c = true) : (l1 ++ l2).dropWhile p = l2.dropWhile p := by
  induction l1 with
  | nil => simp
  | cons a l ih =>
    rw [List.cons_append, List.dropWhile_cons, if_pos (h a (List.mem_cons_self a l))]
    exact ih (fun c hc => h c (List.mem_cons_of_mem a hc))

theorem takeWhile_append_all {p : Char → Bool} (l1 l2 : List Char)
    (h : ∀ c ∈ l1, p c = true) : (l1 ++ l2).takeWhile p = l1 ++ l2.takeWhile p := by
  induction l1 with
  | nil => simp
  | cons a l ih =>
    rw [List.cons_append, List.takeWhile_cons, if_pos (h a (List.mem_cons_self a l))]
    rw [ih (fun c hc => h c (List.mem_cons_of_mem a hc)), List.cons_append]

theorem dropWhile_cons_neg {p : Char → Bool} {a : Char} {l : List Char}
    (h : p a = false) : (a :: l).dropWhile p = a :: l := by
  rw [List.dropWhile_cons, if_neg]
  simp [h]

theorem takeWhile_cons_neg {p : Char → Bool} {a : Char} {l : List Char}
    (h : p a = false) : (a :: l).takeWhile p = [] := by
  rw [List.takeWhile_cons, if_neg]
  simp [h]

theorem not_ws_of_word {c : Char} (h : isWordChar c = true) : isWS c = false := by
  rcases Bool.eq_false_or_eq_true (isWS c) with hw | hw
  · exfalso
    simp only [isWS, Bool.or_eq_true, beq_iff_eq] at hw
    rcases hw with (rfl | rfl) | rfl <;> exact absurd h (by decide)
  · exact hw

theorem wordName_spec {s : String} (h : wordName s = true) :
    s.data ≠ [] ∧ ∀ c ∈ s.data, isWordChar c = true := by
  rw [wordName, Bool.and_eq_true] at h
  obtain ⟨h1, h2⟩ := h
  constructor
  · simp only [Bool.not_eq_true'] at h1
    intro hnil
    rw [hnil] at h1
    simp at h1
  · intro c hc
    exact List.all_eq_true.mp h2 c hc

theorem parseNodeTok_label (sp : List Char) (hsp : ∀ c ∈ sp, isWS c = true)
    (d : GData) (rest : List Char) (hname : wordName d.name = true)
    (hrest : rest = [] ∨ ∃ c cs, rest = c :: cs ∧ isWordChar c = false ∧
      c ≠ '*' ∧ isWS c = false) :
    parseNodeTok (sp ++ (labelChars d ++ rest)) = some (labelChars d, rest) := by
  obtain ⟨hne, hall⟩ := wordName_spec hname
  obtain ⟨c0, name0, hname0⟩ : ∃ c0 name0, d.name.data = c0 :: name0 := by
    cases hd : d.name.data with
    | nil => exact absurd hd hne
    | cons a l => exact ⟨a, l, rfl⟩
  have hc0 : isWordChar c0 = true := hall c0 (by rw [hname0]; exact List.mem_cons_self _ _)
  have hws1 : (sp ++ (labelChars d ++ rest)).dropWhile isWS = labelChars d ++ rest := by
    rw [dropWhile_append_all sp _ hsp, labelChars, hname0, List.cons_append,
      List.cons_append]
    exact dropWhile_cons_neg (not_ws_of_word hc0)
  have htake_rest : rest.takeWhile isWordChar = [] := by
    rcases hrest with rfl | ⟨c, cs, rfl, hw, -, -⟩
    · rfl
    · exact takeWhile_cons_neg hw
  have hdrop_rest : rest.dropWhile isWordChar = rest := by
    rcases hrest with rfl | ⟨c, cs, rfl, hw, -, -⟩
    · rfl
    · exact dropWhile_cons_neg hw
  rcases hfind : d.findable with hT | hT
  · -- non-findable: label = name ++ ['*']
    have hlbl : labelChars d = d.name.data ++ ['*'] := by
      rw [labelChars, hfind]
      simp
    have htake : (labelChars d ++ rest).takeWhile isWordChar = d.name.data := by
      rw [hlbl, List.append_assoc, takeWhile_append_all _ _ hall, List.cons_append,
        takeWhile_cons_neg (by decide : isWordChar '*' = false), List.append_nil]
    have hdrop : (labelChars d ++ rest).dropWhile isWordChar = '*' :: rest := by
      rw [hlbl, List.append_assoc, dropWhile_append_all _ _ hall, List.cons_append,
        dropWhile_cons_neg (by decide : isWordChar '*' = false), List.nil_append]
    simp only [parseNodeTok, hws1, htake, hdrop]
    rw [if_neg (by rw [hname0]; simp)]
    rw [hlbl]
  · -- findable: label = name
    have hlbl : labelChars d = d.name.data := by
      rw [labelChars, hfind]
      simp
    have htake : (labelChars d ++ rest).takeWhile isWordChar = d.name.data := by
      rw [hlbl, takeWhile_append_all _ _ hall, htake_rest, List.append_nil]
    have hdrop : (labelChars d ++ rest).dropWhile isWordChar = rest := by
      rw [hlbl, dropWhile_append_all _ _ hall, hdrop_rest]
    simp only [parseNodeTok, hws1, htake, hdrop]
    rw [if_neg (by rw [hname0]; simp)]
    rw [hlbl]
    rcases hrest with rfl | ⟨c, cs, rfl, -, hstar, -⟩
    · rfl
    · -- match c :: cs where c ≠ '*'
      split
      · next r2 heq =>
          injection heq with h1 h2
          exact absurd h1 hstar
      · rfl

theorem parseNodeTok_stop (c : Char) (xs : List Char) (hw : isWordChar c = false)
    (hs : isWS c = false) : parseNodeTok (c :: xs) = none := by
  simp [parseNodeTok, dropWhile_cons_neg hs, takeWhile_cons_neg hw]

theorem parseTreeF_stop (fuel : ℕ) (c : Char) (xs : List Char)
    (hw : isWordChar c = false) (hs : isWS c = false) :
    parseTreeF fuel (c :: xs) = none := by
  cases fuel with
  | zero => rfl
  | succ f => simp [parseTreeF, parseNodeTok_stop c xs hw hs]

theorem parseTreeF_succ_of_tok (fuel : ℕ) (cs tok r : List Char)
    (htok : parseNodeTok cs = some (tok, r)) :
    parseTreeF (fuel + 1) cs =
      (match parseSubF (parseTreeF fuel) r with
        | some (hi, lo, r') => some (RawTree.mk tok hi lo, r')
        | none => some (RawTree.mk tok none none, r)) := by
  simp only [parseTreeF, htok]

theorem parseSubF_step (pt : List Char → Option (RawTree × List Char))
    (r2 : List Char) (hi : Option RawTree) (r3 : List Char)
    (hHi : (pt r2 = none ∧ hi = none ∧ r3 = r2) ∨ (∃ t, pt r2 = some (t, r3) ∧ hi = some t))
    (r5 : List Char) (hr3 : r3.dropWhile isWS = ',' :: r5)
    (lo : Option RawTree) (r6 : List Char)
    (hLo : (pt r5 = none ∧ lo = none ∧ r6 = r5) ∨ (∃ t, pt r5 = some (t, r6) ∧ lo = some t))
    (r8 : List Char) (hr6 : r6.dropWhile isWS = ')' :: r8) :
    parseSubF pt ('(' :: r2) = some (hi, lo, r8) := by
  simp only [parseSubF]
  rw [dropWhile_cons_neg (show isWS '(' = false by decide)]
  rcases hHi with ⟨hn, rfl, rfl⟩ | ⟨t, hs, rfl⟩
  · simp only [hn, hr3]
    rcases hLo with ⟨hn2, rfl, rfl⟩ | ⟨t2, hs2, rfl⟩
    · simp only [hn2, hr6]
    · simp only [hs2, hr6]
  · simp only [hs, hr3]
    rcases hLo with ⟨hn2, rfl, rfl⟩ | ⟨t2, hs2, rfl⟩
    · simp only [hn2, hr6]
    · simp only [hs2, hr6]

theorem parseTreeF_writeChars :
    ∀ (fuel : ℕ) (t : GusherNode), heightT t < fuel → wordlikeB t = true →
    ∀ (sp rest : List Char), (∀ c ∈ sp, isWS c = true) →
    (rest = [] ∨ ∃ c cs, rest = c :: cs ∧ (c = ',' ∨ c = ')')) →
    parseTreeF fuel (sp ++ (writeChars t ++ rest)) = some (rawOf t, rest) := by
  intro fuel
  induction fuel with
  | zero => intro t ht; exact (Nat.not_lt_zero _ ht).elim
  | succ fuel ih =>
    intro t ht hword sp rest hsp hrest
    have hrest' : rest = [] ∨ ∃ c cs, rest = c :: cs ∧ isWordChar c = false ∧
        c ≠ '*' ∧ isWS c = false := by
      rcases hrest with rfl | ⟨c, cs, rfl, hc | hc⟩
      · exact Or.inl rfl
      · subst hc; exact Or.inr ⟨_, _, rfl, by decide, by decide, by decide⟩
      · subst hc; exact Or.inr ⟨_, _, rfl, by decide, by decide, by decide⟩
    obtain ⟨d, hi, lo⟩ := t
    cases hi with
    | none =>
      cases lo with
      | none =>
        have hword' : wordName d.name = true := by simpa [wordlikeB] using hword
        rw [show writeChars (.mk d none none) ++ rest = labelChars d ++ rest by
          simp [writeChars]]
        rw [parseTreeF_succ_of_tok fuel _ _ _ (parseNodeTok_label sp hsp d rest hword' hrest')]
        have hsub : parseSubF (parseTreeF fuel) rest = none := by
          rcases hrest with rfl | ⟨c, cs, rfl, hc | hc⟩
          · rfl
          · subst hc
            simp [parseSubF, dropWhile_cons_neg (show isWS ',' = false by decide)]
          · subst hc
            simp [parseSubF, dropWhile_cons_neg (show isWS ')' = false by decide)]
        rw [hsub]
        rfl
      | some l =>
        have hword' : wordName d.name = true ∧ wordlikeB l = true := by
          simpa [wordlikeB, Bool.and_eq_true] using hword
        have hht : heightT (GusherNode.mk d none (some l)) = 1 + heightT l := rfl
        have hl : heightT l < fuel := by omega
        rw [show writeChars (.mk d none (some l)) ++ rest =
            labelChars d ++ ('(' :: (',' :: (writeChars l ++ (')' :: rest)))) by
          simp [writeChars]]
        rw [parseTreeF_succ_of_tok fuel _ _ _
          (parseNodeTok_label sp hsp d _ hword'.1
            (Or.inr ⟨'(', _, rfl, by decide, by decide, by decide⟩))]
        have ihl := ih l hl hword'.2 [] (')' :: rest) (by simp)
          (Or.inr ⟨')', rest, rfl, Or.inr rfl⟩)
        rw [List.nil_append] at ihl
        have hsub := parseSubF_step (parseTreeF fuel)
          (',' :: (writeChars l ++ (')' :: rest)))
          none (',' :: (writeChars l ++ (')' :: rest)))
          (Or.inl ⟨parseTreeF_stop fuel ',' _ (by decide) (by decide), rfl, rfl⟩)
          (writeChars l ++ (')' :: rest))
          (dropWhile_cons_neg (by decide))
          (some (rawOf l)) (')' :: rest)
          (Or.inr ⟨rawOf l, ihl, rfl⟩)
          rest
          (dropWhile_cons_neg (by decide))
        rw [hsub]
        rfl
    | some h =>
      cases lo with
      | none =>
        have hword' : wordName d.name = true ∧ wordlikeB h = true := by
          simpa [wordlikeB, Bool.and_eq_true] using hword
        have hht : heightT (GusherNode.mk d (some h) none) = 1 + heightT h := rfl
        have hh : heightT h < fuel := by omega
        rw [show writeChars (.mk d (some h) none) ++ rest =
            labelChars d ++ ('(' :: (writeChars h ++ (',' :: (')' :: rest)))) by
          simp [writeChars]]
        rw [parseTreeF_succ_of_tok fuel _ _ _
          (parseNodeTok_label sp hsp d _ hword'.1
            (Or.inr ⟨'(', _, rfl, by decide, by decide, by decide⟩))]
        have ihh := ih h hh hword'.2 [] (',' :: (')' :: rest)) (by simp)
          (Or.inr ⟨',', _, rfl, Or.inl rfl⟩)
        rw [List.nil_append] at ihh
        have hsub := parseSubF_step (parseTreeF fuel)
          (writeChars h ++ (',' :: (')' :: rest)))
          (some (rawOf h)) (',' :: (')' :: rest))
          (Or.inr ⟨rawOf h, ihh, rfl⟩)
          (')' :: rest)
          (dropWhile_cons_neg (by decide))
          none (')' :: rest)
          (Or.inl ⟨parseTreeF_stop fuel ')' rest (by decide) (by decide), rfl, rfl⟩)
          rest
          (dropWhile_cons_neg (by decide))
        rw [hsub]
        rfl
      | some l =>
        have hword' : wordName d.name = true ∧ wordlikeB h = true ∧ wordlikeB l = true := by
          simpa [wordlikeB, Bool.and_eq_true, and_assoc] using hword
        have hht : heightT (GusherNode.mk d (some h) (some l)) =
            1 + max (heightT h) (heightT l) := rfl
        have hmh : heightT h ≤ max (heightT h) (heightT l) := le_max_left _ _
        have hml : heightT l ≤ max (heightT h) (heightT l) := le_max_right _ _
        have hh : heightT h < fuel := by omega
        have hl : heightT l < fuel := by omega
        rw [show writeChars (.mk d (some h) (some l)) ++ rest =
            labelChars d ++
              ('(' :: (writeChars h ++ (',' :: (' ' :: (writeChars l ++ (')' :: rest)))))) by
          simp [writeChars]]
        rw [parseTreeF_succ_of_tok fuel _ _ _
          (parseNodeTok_label sp hsp d _ hword'.1
            (Or.inr ⟨'(', _, rfl, by decide, by decide, by decide⟩))]
        have ihh := ih h hh hword'.2.1 []
          (',' :: (' ' :: (writeChars l ++ (')' :: rest)))) (by simp)
          (Or.inr ⟨',', _, rfl, Or.inl rfl⟩)
        rw [List.nil_append] at ihh
        have ihl := ih l hl hword'.2.2 [' '] (')' :: rest)
          (by intro c hc; simp at hc; subst hc; decide)
          (Or.inr ⟨')', rest, rfl, Or.inr rfl⟩)
        simp only [List.cons_append, List.nil_append] at ihl
        have hsub := parseSubF_step (parseTreeF fuel)
          (writeChars h ++ (',' :: (' ' :: (writeChars l ++ (')' :: rest)))))
          (some (rawOf h)) (',' :: (' ' :: (writeChars l ++ (')' :: rest))))
          (Or.inr ⟨rawOf h, ihh, rfl⟩)
          (' ' :: (writeChars l ++ (')' :: rest)))
          (dropWhile_cons_neg (by decide))
          (some (rawOf l)) (')' :: rest)
          (Or.inr ⟨rawOf l, ihl, rfl⟩)
          rest
          (dropWhile_cons_neg (by decide))
        rw [hsub]
        rfl

theorem skel_attachTo (pd : GData) (dist : ℚ) (c : GusherNode) :
    skel (attachTo pd dist c) = skel c := by
  obtain ⟨dc, hc, lc⟩ := c
  cases hc <;> cases lc <;> simp [attachTo, skel]

theorem word_ne_star {c : Char} (h : isWordChar c = true) : (c == '*') = false := by
  rcases Bool.eq_false_or_eq_true (c == '*') with hb | hb
  · exfalso
    rw [beq_iff_eq] at hb
    subst hb
    exact absurd h (by decide)
  · exact hb

theorem label_facts (d : GData) (h : wordName d.name = true) :
    rstripStar (labelChars d) = d.name.data ∧
    (match (labelChars d).getLast? with
      | some c => decide (c ≠ '*')
      | none => true) = d.findable := by
  obtain ⟨hne, hall⟩ := wordName_spec h
  obtain ⟨c, rest', hrev⟩ : ∃ c rest', d.name.data.reverse = c :: rest' := by
    cases hr : d.name.data.reverse with
    | nil => exact absurd (List.reverse_eq_nil_iff.mp hr) hne
    | cons a l => exact ⟨a, l, rfl⟩
  have hcw : isWordChar c = true := hall c (by
    rw [← List.mem_reverse, hrev]
    exact List.mem_cons_self _ _)
  have hcne : c ≠ '*' := by
    intro he
    subst he
    exact absurd hcw (by decide)
  rcases hf : d.findable with hfv | hfv
  · have hlbl : labelChars d = d.name.data ++ ['*'] := by simp [labelChars, hf]
    constructor
    · rw [rstripStar, hlbl, List.reverse_append]
      simp only [List.reverse_singleton, List.singleton_append]
      rw [List.dropWhile_cons, if_pos (by decide), hrev, List.dropWhile_cons,
        if_neg (by simp [word_ne_star hcw]), ← hrev, List.reverse_reverse]
    · rw [hlbl, List.getLast?_concat]
      decide
  · have hlbl : labelChars d = d.name.data := by simp [labelChars, hf]
    constructor
    · rw [rstripStar, hlbl, hrev, List.dropWhile_cons,
        if_neg (by simp [word_ne_star hcw]), ← hrev, List.reverse_reverse]
    · rw [hlbl, ← List.head?_reverse, hrev]
      simp [decide_eq_true hcne]

theorem buildTree_rawOf (gm : Option GusherMap) :
    ∀ t : GusherNode, wordlikeB t = true → weightFromB gm t = true →
    ∃ u, buildTree gm (rawOf t) = some u ∧ skel u = skel t ∧ u.data.parent = none := by
  intro t
  induction t using nodeInd with
  | step d hi lo ihH ihL =>
    intro hword hweight
    cases hi with
    | none =>
      cases lo with
      | none =>
        have hw : wordName d.name = true := by simpa [wordlikeB] using hword
        have hwt : d.weight = defWeight gm d.name := by
          simpa [weightFromB] using hweight
        obtain ⟨hr, hf⟩ := label_facts d hw
        refine ⟨initNode d.name gm d.findable, ?_, ?_, rfl⟩
        · simp only [rawOf, buildTree, hr, hf]
        · simp [initNode, skel, hwt]
      | some l =>
        have hw : wordName d.name = true ∧ wordlikeB l = true := by
          simpa [wordlikeB, Bool.and_eq_true] using hword
        have hwt : d.weight = defWeight gm d.name ∧ weightFromB gm l = true := by
          simpa [weightFromB, Bool.and_eq_true] using hweight
        obtain ⟨hr, hf⟩ := label_facts d hw.1
        obtain ⟨ul, hbl, hsl, hpl⟩ := ihL l rfl hw.2 hwt.2
        simp only [rawOf, buildTree, hr, hf, hbl]
        rw [add_children_eq _ _ _ _ _ (fun _ hh => by cases hh)
          (fun _ hl => by cases hl; exact ⟨rfl, hpl⟩)]
        refine ⟨_, rfl, ?_, rfl⟩
        simp [skel, skel_attachTo, hsl, initNode, hwt.1]
    | some h =>
      cases lo with
      | none =>
        have hw : wordName d.name = true ∧ wordlikeB h = true := by
          simpa [wordlikeB, Bool.and_eq_true] using hword
        have hwt : d.weight = defWeight gm d.name ∧ weightFromB gm h = true := by
          simpa [weightFromB, Bool.and_eq_true] using hweight
        obtain ⟨hr, hf⟩ := label_facts d hw.1
        obtain ⟨uh, hbh, hsh, hph⟩ := ihH h rfl hw.2 hwt.2
        simp only [rawOf, buildTree, hr, hf, hbh]
        rw [add_children_eq _ _ _ _ _ (fun _ hh => by cases hh; exact ⟨rfl, hph⟩)
          (fun _ hl => by cases hl)]
        refine ⟨_, rfl, ?_, rfl⟩
        simp [skel, skel_attachTo, hsh, initNode, hwt.1]
      | some l =>
        have hw : wordName d.name = true ∧ wordlikeB h = true ∧ wordlikeB l = true := by
          simpa [wordlikeB, Bool.and_eq_true, and_assoc] using hword
        have hwt : d.weight = defWeight gm d.name ∧ weightFromB gm h = true ∧
            weightFromB gm l = true := by
          simpa [weightFromB, Bool.and_eq_true, and_assoc] using hweight
        obtain ⟨hr, hf⟩ := label_facts d hw.1
        obtain ⟨uh, hbh, hsh, hph⟩ := ihH h rfl hw.2.1 hwt.2.1
        obtain ⟨ul, hbl, hsl, hpl⟩ := ihL l rfl hw.2.2 hwt.2.2
        simp only [rawOf, buildTree, hr, hf, hbh, hbl]
        rw [add_children_eq _ _ _ _ _ (fun _ hh => by cases hh; exact ⟨rfl, hph⟩)
          (fun _ hl => by cases hl; exact ⟨rfl, hpl⟩)]
        refine ⟨_, rfl, ?_, rfl⟩
        simp [skel, skel_attachTo, hsh, hsl, initNode, hwt.1]

theorem wordlikeB_name {d : GData} {hi lo : Option GusherNode}
    (h : wordlikeB (.mk d hi lo) = true) : wordName d.name = true := by
  cases hi <;> cases lo <;> simp [wordlikeB, Bool.and_eq_true] at h <;> tauto

theorem wordlikeB_high {d : GData} {hi lo : Option GusherNode} {h : GusherNode}
    (hh : hi = some h) (hw : wordlikeB (.mk d hi lo) = true) : wordlikeB h = true := by
  subst hh
  cases lo <;> simp [wordlikeB, Bool.and_eq_true] at hw <;> tauto

theorem wordlikeB_low {d : GData} {hi lo : Option GusherNode} {l : GusherNode}
    (hl : lo = some l) (hw : wordlikeB (.mk d hi lo) = true) : wordlikeB l = true := by
  subst hl
  cases hi <;> simp [wordlikeB, Bool.and_eq_true] at hw <;> tauto

theorem skel_updRec (gm : Option GusherMap) (start : String) :
    ∀ (t : GusherNode) (pl pw : ℚ) (pinfo : Option (String × ℚ)),
      skel (updRec gm start t pl pw pinfo) = skel t := by
  intro t
  induction t using nodeInd with
  | step d hi lo ihH ihL =>
    intro pl pw pinfo
    rw [updRec_node]
    cases hi with
    | none =>
      cases lo with
      | none => simp [skel]
      | some l => simp [skel, ihL l rfl]
    | some h =>
      cases lo with
      | none => simp [skel, ihH h rfl]
      | some l => simp [skel, ihH h rfl, ihL l rfl]

theorem skel_calc (gm : Option GusherMap) (start : String) (t : GusherNode) :
    skel (calc_tree_score gm start t) = skel t := by
  obtain ⟨d, hi, lo⟩ := t
  rw [calc_node]
  cases hi <;> cases lo <;>
    simp [skel, skel_updRec]

theorem calc_parent (gm : Option GusherMap) (start : String) (t : GusherNode) :
    (calc_tree_score gm start t).data.parent = t.data.parent := by
  obtain ⟨d, hi, lo⟩ := t
  rw [calc_node]
  cases hi <;> cases lo <;> simp

theorem heightT_le_writeChars (t : GusherNode) (hword : wordlikeB t = true) :
    heightT t ≤ (writeChars t).length := by
  induction t using nodeInd with
  | step d hi lo ihH ihL =>
    have hlbl : 1 ≤ (labelChars d).length := by
      obtain ⟨hne, -⟩ := wordName_spec (wordlikeB_name hword)
      rw [labelChars, List.length_append]
      cases hd : d.name.data with
      | nil => exact absurd hd hne
      | cons a l => simp only [hd, List.length_cons]; omega
    cases hi with
    | none =>
      cases lo with
      | none => simpa [heightT, writeChars] using hlbl
      | some l =>
        have h2 := ihL l rfl (wordlikeB_low rfl hword)
        simp only [heightT, writeChars, List.length_append, List.length_cons]
        omega
    | some h =>
      cases lo with
      | none =>
        have h2 := ihH h rfl (wordlikeB_high rfl hword)
        simp only [heightT, writeChars, List.length_append, List.length_cons]
        omega
      | some l =>
        have h2 := ihH h rfl (wordlikeB_high rfl hword)
        have h3 := ihL l rfl (wordlikeB_low rfl hword)
        have hmax : max (heightT h) (heightT l) ≤ heightT h + heightT l :=
          max_le (Nat.le_add_right _ _) (Nat.le_add_left _ _)
        simp only [heightT, writeChars, List.length_append, List.length_cons]
        omega

/-- `read_tree` of `write_tree` succeeds and yields a tree with the same
skeleton (names, weights, findability, shape) and a parentless root, for any
tree with regex-reproducible names whose weights come from the same gusher
map. -/
theorem read_write_tree (gm : Option GusherMap) (start : String) (t : GusherNode)
    (hword : wordlikeB t = true) (hweight : weightFromB gm t = true) :
    ∃ u, read_tree (write_tree t) gm start = some u ∧ skel u = skel t ∧
      u.data.parent = none := by
  obtain ⟨u₀, hb, hs, hp⟩ := buildTree_rawOf gm t hword hweight
  have hlen : heightT t < (writeChars t).length + 1 :=
    Nat.lt_succ_of_le (heightT_le_writeChars t hword)
  have hparse := parseTreeF_writeChars ((writeChars t).length + 1) t hlen hword [] []
    (by simp) (Or.inl rfl)
  rw [List.nil_append, List.append_nil] at hparse
  have hd : (write_tree t).data = writeChars t := rfl
  refine ⟨calc_tree_score gm start u₀, ?_, ?_, ?_⟩
  · simp only [read_tree, hd, hparse, hb]
  · rw [skel_calc, hs]
  · rw [calc_parent]
    exact hp

theorem updRec_lat_risk_of_skel (m : GusherMap) (start : String) :
    ∀ (p : List Bool) (a b : GusherNode), skel a = skel b →
    ∀ (pl pw : ℚ) (pinfo : Option (String × ℚ)),
      ((subtreeAt (updRec (some m) start a pl pw pinfo) p).map (fun n => n.data.latency) =
       (subtreeAt (updRec (some m) start b pl pw pinfo) p).map (fun n => n.data.latency)) ∧
      ((subtreeAt (updRec (some m) start a pl pw pinfo) p).map (fun n => n.data.risk) =
       (subtreeAt (updRec (some m) start b pl pw pinfo) p).map (fun n => n.data.risk)) := by
  intro p
  induction p with
  | nil =>
    intro a b hsk pl pw pinfo
    obtain ⟨da, hia, loa⟩ := a
    obtain ⟨db, hib, lob⟩ := b
    have hname : da.name = db.name := by
      cases hia <;> cases loa <;> cases hib <;> cases lob <;>
        simp [skel] at hsk <;> tauto
    rw [updRec_node, updRec_node]
    simp only [subtreeAt_nil, Option.map_some', GusherNode.data_mk]
    constructor <;>
      (cases pinfo with
        | none => simp [updData, hname]
        | some x => obtain ⟨pn, pr⟩ := x; simp [updData_some, hname])
  | cons b' p ih =>
    intro a b hsk pl pw pinfo
    obtain ⟨da, hia, loa⟩ := a
    obtain ⟨db, hib, lob⟩ := b
    have hname : da.name = db.name := by
      cases hia <;> cases loa <;> cases hib <;> cases lob <;>
        simp [skel] at hsk <;> tauto
    have hweight : da.weight = db.weight := by
      cases hia <;> cases loa <;> cases hib <;> cases lob <;>
        simp [skel] at hsk <;> tauto
    have hlat : (updData (some m) start da pl pw pinfo).latency =
        (updData (some m) start db pl pw pinfo).latency := by
      cases pinfo with
      | none => simp [updData, hname]
      | some x => obtain ⟨pn, pr⟩ := x; simp [updData_some, hname]
    have hrisk : (updData (some m) start da pl pw pinfo).risk =
        (updData (some m) start db pl pw pinfo).risk := by
      cases pinfo with
      | none => simp [updData, hname]
      | some x => obtain ⟨pn, pr⟩ := x; simp [updData_some, hname]
    rw [updRec_node, updRec_node]
    cases b'
    · -- low step
      cases loa with
      | none =>
        cases lob with
        | none =>
          simp only [Option.map_none']
          rw [subtreeAt_cons_false, subtreeAt_cons_false]
          simp
        | some l' =>
          exfalso
          cases hia <;> cases hib <;> simp [skel] at hsk
      | some l =>
        cases lob with
        | none =>
          exfalso
          cases hia <;> cases hib <;> simp [skel] at hsk
        | some l' =>
          have hskl : skel l = skel l' := by
            cases hia <;> cases hib <;> simp [skel] at hsk <;> tauto
          simp only [Option.map_some']
          rw [subtreeAt_false_some _ _ _ rfl, subtreeAt_false_some _ _ _ rfl]
          rw [← hname, ← hweight, ← hlat, ← hrisk]
          exact ih l l' hskl _ _ _
    · -- high step
      cases hia with
      | none =>
        cases hib with
        | none =>
          simp only [Option.map_none']
          rw [subtreeAt_cons_true, subtreeAt_cons_true]
          simp
        | some h' =>
          exfalso
          cases loa <;> cases lob <;> simp [skel] at hsk
      | some h =>
        cases hib with
        | none =>
          exfalso
          cases loa <;> cases lob <;> simp [skel] at hsk
        | some h' =>
          have hskh : skel h = skel h' := by
            cases loa <;> cases lob <;> simp [skel] at hsk <;> tauto
          simp only [Option.map_some']
          rw [subtreeAt_true_some _ _ _ rfl, subtreeAt_true_some _ _ _ rfl]
          rw [← hname, ← hweight, ← hlat, ← hrisk]
          exact ih h h' hskh _ _ _

theorem calc_lat_risk (gm : Option GusherMap) (start : String) (t : GusherNode)
    (p : List Bool) :
    ((subtreeAt (calc_tree_score gm start t) p).map (fun n => n.data.latency) =
     (subtreeAt (update_costs gm start t) p).map (fun n => n.data.latency)) ∧
    ((subtreeAt (calc_tree_score gm start t) p).map (fun n => n.data.risk) =
     (subtreeAt (update_costs gm start t) p).map (fun n => n.data.risk)) := by
  obtain ⟨d, hi, lo⟩ := t
  rw [calc_node, update_costs, updRec_node]
  cases p with
  | nil => simp
  | cons b p' =>
    cases b
    · rw [subtreeAt_cons_false, subtreeAt_cons_false]
      exact ⟨rfl, rfl⟩
    · rw [subtreeAt_cons_true, subtreeAt_cons_true]
      exact ⟨rfl, rfl⟩

/-- C3: parsing the writer's output reproduces the tree: `read_tree` on
`write_tree t` (with the same gusher map) succeeds and the result satisfies
`is_same_tree` with `t` (same names, findability, weights and shape), even
though the text encodes no cost fields; and after the cost refresh is run on
both trees with the same gusher map and start point, the latency and risk of
the node at every position agree exactly.  The hypotheses say the tree is
validly constructed for this round trip: every name is nonempty and made of
word characters (so the node-token regex can reproduce it) and every weight
is the one this gusher map assigns (as holds for any tree whose nodes were
created against it). -/
theorem c3_serialize_round_trip (m : GusherMap) (start : String) (t : GusherNode)
    (hword : wordlikeB t = true) (hweight : weightFromB (some m) t = true) :
    ∃ u, read_tree (write_tree t) (some m) start = some u ∧
      is_same_tree u (some t) = true ∧
      ∀ p : List Bool,
        ((subtreeAt (calc_tree_score (some m) start u) p).map (fun n => n.data.latency) =
         (subtreeAt (calc_tree_score (some m) start t) p).map (fun n => n.data.latency)) ∧
        ((subtreeAt (calc_tree_score (some m) start u) p).map (fun n => n.data.risk) =
         (subtreeAt (calc_tree_score (some m) start t) p).map (fun n => n.data.risk)) := by
  obtain ⟨u, hru, hsk, -⟩ := read_write_tree (some m) start t hword hweight
  refine ⟨u, hru, (is_same_iff_skel u t).mpr hsk, ?_⟩
  intro p
  have h1 := calc_lat_risk (some m) start u p
  have h2 := calc_lat_risk (some m) start t p
  simp only [update_costs] at h1 h2
  have h3 := updRec_lat_risk_of_skel m start p u t hsk 0 0 none
  exact ⟨h1.1.trans (h3.1.trans h2.1.symm), h1.2.trans (h3.2.trans h2.2.symm)⟩

/-- C3 witness: the round trip evaluated on a concrete three-node tree. -/
theorem c3_witness :
    ∃ u, read_tree (write_tree wTree) (some wMap) "basket" = some u ∧
      is_same_tree u (some wTree) = true ∧
      ∀ p : List Bool,
        ((subtreeAt (calc_tree_score (some wMap) "basket" u) p).map (fun n => n.data.latency) =
         (subtreeAt (calc_tree_score (some wMap) "basket" wTree) p).map (fun n => n.data.latency)) ∧
        ((subtreeAt (calc_tree_score (some wMap) "basket" u) p).map (fun n => n.data.risk) =
         (subtreeAt (calc_tree_score (some wMap) "basket" wTree) p).map (fun n => n.data.risk)) :=
  c3_serialize_round_trip wMap "basket" wTree (by decide) (by decide)

theorem candLoop_spec (G : Graph) (rec : List String → Memo → Option GusherNode × Memo)
    (O : List String) (n : ℚ) :
    ∀ (Vs : List String) (memo : Memo),
      ((candLoop G rec O n Vs memo).1.map (fun c => c.V) = Vs) ∧
      (∀ c ∈ (candLoop G rec O n Vs memo).1,
        c.score = (n - 1) * G.penalty c.V + objOpt c.hiT + objOpt c.loT ∧
        ∃ m1, (rec (splitgraph G O c.V).1 m1).1 = c.hiT ∧
          (rec (splitgraph G O c.V).2 (rec (splitgraph G O c.V).1 m1).2).1 = c.loT) := by
  intro Vs
  induction Vs with
  | nil => intro memo; exact ⟨rfl, fun c hc => absurd hc (List.not_mem_nil c)⟩
  | cons V Vs ih =>
    intro memo
    obtain ⟨ih1, ih2⟩ := ih (rec (splitgraph G O V).2 (rec (splitgraph G O V).1 memo).2).2
    constructor
    · simp only [candLoop, List.map_cons, ih1]
    · intro c hc
      simp only [candLoop, List.mem_cons] at hc
      rcases hc with rfl | hc
      · exact ⟨rfl, memo, rfl, rfl⟩
      · exact ih2 c hc

theorem foldlMin_spec :
    ∀ (cs : List Cand) (best : Cand),
      (cs.foldl (fun b x => if x.score < b.score then x else b) best = best ∨
        cs.foldl (fun b x => if x.score < b.score then x else b) best ∈ cs) ∧
      (cs.foldl (fun b x => if x.score < b.score then x else b) best).score ≤ best.score ∧
      (∀ c' ∈ cs,
        (cs.foldl (fun b x => if x.score < b.score then x else b) best).score ≤ c'.score) := by
  intro cs
  induction cs with
  | nil =>
    intro best
    exact ⟨Or.inl rfl, le_refl _, fun c hc => absurd hc (List.not_mem_nil c)⟩
  | cons x cs ih =>
    intro best
    rw [List.foldl_cons]
    obtain ⟨hmem, hle, hall⟩ := ih (if x.score < best.score then x else best)
    have hnb : (if x.score < best.score then x else best).score ≤ best.score ∧
        (if x.score < best.score then x else best).score ≤ x.score := by
      split
      · next hlt => exact ⟨le_of_lt hlt, le_refl _⟩
      · next hge => exact ⟨le_refl _, le_of_not_lt hge⟩
    refine ⟨?_, le_trans hle hnb.1, ?_⟩
    · rcases hmem with heq | hmem
      · rw [heq]
        split
        · exact Or.inr (List.mem_cons_self _ _)
        · exact Or.inl rfl
      · exact Or.inr (List.mem_cons_of_mem _ hmem)
    · intro c' hc'
      rcases List.mem_cons.mp hc' with rfl | hc'
      · exact le_trans hle hnb.2
      · exact hall c' hc'

theorem chooseMin_spec (cs : List Cand) (c : Cand) (hc : chooseMin cs = some c) :
    c ∈ cs ∧ ∀ c' ∈ cs, c.score ≤ c'.score := by
  cases cs with
  | nil => cases hc
  | cons x cs =>
    rw [chooseMin, Option.some.injEq] at hc
    obtain ⟨hmem, hle, hall⟩ := foldlMin_spec cs x
    subst hc
    constructor
    · rcases hmem with heq | hmem
      · rw [heq]; exact List.mem_cons_self _ _
      · exact List.mem_cons_of_mem _ hmem
    · intro c' hc'
      rcases List.mem_cons.mp hc' with rfl | hc'
      · exact hle
      · exact hall c' hc'

unseal Rat.add Rat.mul Rat.sub in
theorem triangle_eval :
    (getstratnarrow triGraph).map (fun t => (t.data.obj, shapeTwoLevel t, write_tree t)) =
      some (3, true, "A(B(C,),)") := by
  decide

unseal Rat.add Rat.mul Rat.sub in
theorem twoGraph_eval :
    (getstratnarrow twoGraph).map (fun t => (t.data.name, t.data.obj, write_tree t)) =
      some ("B", 1, "B(A,)") := by
  decide

theorem wordlikeB_skel : ∀ t : GusherNode, wordlikeB t = skelWord (skel t) := by
  intro t
  induction t using nodeInd with
  | step d hi lo ihH ihL =>
    cases hi with
    | none =>
      cases lo with
      | none => simp [wordlikeB, skel, skelWord]
      | some l => simp [wordlikeB, skel, skelWord, ihL l rfl]
    | some h =>
      cases lo with
      | none => simp [wordlikeB, skel, skelWord, ihH h rfl]
      | some l => simp [wordlikeB, skel, skelWord, ihH h rfl, ihL l rfl]

theorem weightFromB_skel (gm : Option GusherMap) :
    ∀ t : GusherNode, weightFromB gm t = skelWeight gm (skel t) := by
  intro t
  induction t using nodeInd with
  | step d hi lo ihH ihL =>
    cases hi with
    | none =>
      cases lo with
      | none => simp [weightFromB, skel, skelWeight]
      | some l => simp [weightFromB, skel, skelWeight, ihL l rfl]
    | some h =>
      cases lo with
      | none => simp [weightFromB, skel, skelWeight, ihH h rfl]
      | some l => simp [weightFromB, skel, skelWeight, ihH h rfl, ihL l rfl]

theorem skel_setObj (o : ℚ) (t : GusherNode) : skel (setObj o t) = skel t := by
  obtain ⟨d, hi, lo⟩ := t
  cases hi <;> cases lo <;> simp [setObj, skel]

theorem setObj_parent (o : ℚ) (t : GusherNode) :
    (setObj o t).data.parent = t.data.parent := rfl

theorem setObj_obj (o : ℚ) (t : GusherNode) : (setObj o t).data.obj = o := rfl

theorem wordlikeB_node_iff (d : GData) (hi lo : Option GusherNode) :
    wordlikeB (.mk d hi lo) = true ↔
      (wordName d.name = true ∧ (∀ h, hi = some h → wordlikeB h = true) ∧
       (∀ l, lo = some l → wordlikeB l = true)) := by
  cases hi <;> cases lo <;> simp [wordlikeB, Bool.and_eq_true, and_assoc]

theorem weightFromB_node_iff (gm : Option GusherMap) (d : GData)
    (hi lo : Option GusherNode) :
    weightFromB gm (.mk d hi lo) = true ↔
      (d.weight = defWeight gm d.name ∧
       (∀ h, hi = some h → weightFromB gm h = true) ∧
       (∀ l, lo = some l → weightFromB gm l = true)) := by
  cases hi <;> cases lo <;> simp [weightFromB, Bool.and_eq_true, and_assoc]

theorem getstratrecurse_hit (G : Graph) (fuel : ℕ) (O : List String) (memo : Memo)
    (s : String) (o : ℚ) (hlk : lookupMemo memo O = some (s, o)) :
    getstratrecurse G (fuel + 1) O memo = (readtreeObj s G o, memo) := by
  simp only [getstratrecurse, hlk]

theorem getstratrecurse_one (G : Graph) (fuel : ℕ) (v : String) (rest : List String)
    (memo : Memo) (hlk : lookupMemo memo (v :: rest) = none)
    (h1 : (v :: rest).length = 1) :
    getstratrecurse G (fuel + 1) (v :: rest) memo =
      (some (setObj 0 (makenode G v)), memo) := by
  simp only [getstratrecurse, hlk]
  rw [if_pos h1]

theorem getstratrecurse_other (G : Graph) (fuel : ℕ) (O : List String) (memo : Memo)
    (hlk : lookupMemo memo O = none) (h1 : O.length ≠ 1) (h2 : ¬ 1 < O.length) :
    getstratrecurse G (fuel + 1) O memo = (none, memo) := by
  simp only [getstratrecurse, hlk]
  rw [if_neg h1, if_neg h2]

theorem getstratrecurse_rec_cmnone (G : Graph) (fuel : ℕ) (O : List String)
    (memo : Memo) (hlk : lookupMemo memo O = none) (h1 : O.length ≠ 1)
    (h2 : 1 < O.length)
    (hcm : chooseMin (candLoop G (getstratrecurse G fuel) O (O.length : ℚ) O memo).1 =
      none) :
    getstratrecurse G (fuel + 1) O memo =
      (none, (candLoop G (getstratrecurse G fuel) O (O.length : ℚ) O memo).2) := by
  simp only [getstratrecurse, hlk]
  rw [if_neg h1, if_pos h2]
  simp only [hcm]

theorem getstratrecurse_rec_addnone (G : Graph) (fuel : ℕ) (O : List String)
    (memo : Memo) (hlk : lookupMemo memo O = none) (h1 : O.length ≠ 1)
    (h2 : 1 < O.length) (c : Cand)
    (hcm : chooseMin (candLoop G (getstratrecurse G fuel) O (O.length : ℚ) O memo).1 =
      some c)
    (hadd : add_children (makenode G c.V) c.hiT c.loT 1 1 = none) :
    getstratrecurse G (fuel + 1) O memo =
      (none, (candLoop G (getstratrecurse G fuel) O (O.length : ℚ) O memo).2) := by
  simp only [getstratrecurse, hlk]
  rw [if_neg h1, if_pos h2]
  simp only [hcm, hadd]

theorem getstratrecurse_rec_addsome (G : Graph) (fuel : ℕ) (O : List String)
    (memo : Memo) (hlk : lookupMemo memo O = none) (h1 : O.length ≠ 1)
    (h2 : 1 < O.length) (c : Cand)
    (hcm : chooseMin (candLoop G (getstratrecurse G fuel) O (O.length : ℚ) O memo).1 =
      some c)
    (root : GusherNode)
    (hadd : add_children (makenode G c.V) c.hiT c.loT 1 1 = some root) :
    getstratrecurse G (fuel + 1) O memo =
      (some (setObj c.score root),
       if (setObj c.score root).high.isSome || (setObj c.score root).low.isSome then
         (O, write_tree (setObj c.score root), (setObj c.score root).data.obj) ::
           (candLoop G (getstratrecurse G fuel) O (O.length : ℚ) O memo).2
       else (candLoop G (getstratrecurse G fuel) O (O.length : ℚ) O memo).2) := by
  simp only [getstratrecurse, hlk]
  rw [if_neg h1, if_pos h2]
  simp only [hcm, hadd]
  split <;> rfl

theorem candLoop_inv (G : Graph) (fuel : ℕ) (O : List String) (n : ℚ)
    (IH : ∀ (O' : List String) (memo' : Memo),
      (∀ v ∈ O', wordName v = true) → MemoInv G memo' →
      MemoInv G (getstratrecurse G fuel O' memo').2 ∧
      ∀ r, (getstratrecurse G fuel O' memo').1 = some r →
        wordlikeB r = true ∧ weightFromB (some (gmOfGraph G)) r = true ∧
        r.data.parent = none)
    (hO : ∀ v ∈ O, wordName v = true) :
    ∀ (Vs : List String) (memo : Memo), MemoInv G memo →
      MemoInv G (candLoop G (getstratrecurse G fuel) O n Vs memo).2 ∧
      ∀ c ∈ (candLoop G (getstratrecurse G fuel) O n Vs memo).1,
        (∀ r, c.hiT = some r → wordlikeB r = true ∧
          weightFromB (some (gmOfGraph G)) r = true ∧ r.data.parent = none) ∧
        (∀ r, c.loT = some r → wordlikeB r = true ∧
          weightFromB (some (gmOfGraph G)) r = true ∧ r.data.parent = none) := by
  intro Vs
  induction Vs with
  | nil => intro memo hm; exact ⟨hm, fun c hc => absurd hc (List.not_mem_nil c)⟩
  | cons V Vs ih =>
    intro memo hm
    have hA : ∀ v ∈ (splitgraph G O V).1, wordName v = true := by
      intro v hv
      simp only [splitgraph] at hv
      exact hO v (List.mem_filter.mp hv).1
    have hB : ∀ v ∈ (splitgraph G O V).2, wordName v = true := by
      intro v hv
      simp only [splitgraph] at hv
      exact hO v (List.mem_filter.mp hv).1
    obtain ⟨hm1, hr1⟩ := IH (splitgraph G O V).1 memo hA hm
    obtain ⟨hm2, hr2⟩ := IH (splitgraph G O V).2 _ hB hm1
    obtain ⟨hm3, hc3⟩ := ih _ hm2
    constructor
    · simpa only [candLoop] using hm3
    · intro c hc
      simp only [candLoop, List.mem_cons] at hc
      rcases hc with rfl | hc
      · exact ⟨fun r hr => hr1 r hr, fun r hr => hr2 r hr⟩
      · exact hc3 c hc

theorem getstratrecurse_rec_store (G : Graph) (fuel : ℕ) (O : List String)
    (memo : Memo) (hlk : lookupMemo memo O = none) (h1 : O.length ≠ 1)
    (h2 : 1 < O.length) (c : Cand)
    (hcm : chooseMin (candLoop G (getstratrecurse G fuel) O (O.length : ℚ) O memo).1 =
      some c)
    (root : GusherNode)
    (hadd : add_children (makenode G c.V) c.hiT c.loT 1 1 = some root)
    (hcond : ((setObj c.score root).high.isSome ||
      (setObj c.score root).low.isSome) = true) :
    getstratrecurse G (fuel + 1) O memo =
      (some (setObj c.score root),
       (O, write_tree (setObj c.score root), (setObj c.score root).data.obj) ::
         (candLoop G (getstratrecurse G fuel) O (O.length : ℚ) O memo).2) := by
  rw [getstratrecurse_rec_addsome G fuel O memo hlk h1 h2 c hcm root hadd,
    if_pos hcond]

theorem getstratrecurse_rec_nostore (G : Graph) (fuel : ℕ) (O : List String)
    (memo : Memo) (hlk : lookupMemo memo O = none) (h1 : O.length ≠ 1)
    (h2 : 1 < O.length) (c : Cand)
    (hcm : chooseMin (candLoop G (getstratrecurse G fuel) O (O.length : ℚ) O memo).1 =
      some c)
    (root : GusherNode)
    (hadd : add_children (makenode G c.V) c.hiT c.loT 1 1 = some root)
    (hcond : ((setObj c.score root).high.isSome ||
      (setObj c.score root).low.isSome) = false) :
    getstratrecurse G (fuel + 1) O memo =
      (some (setObj c.score root),
       (candLoop G (getstratrecurse G fuel) O (O.length : ℚ) O memo).2) := by
  rw [getstratrecurse_rec_addsome G fuel O memo hlk h1 h2 c hcm root hadd,
    if_neg (by simp [hcond])]

theorem setObj_high (o : ℚ) (t : GusherNode) : (setObj o t).high = t.high := rfl

theorem setObj_low (o : ℚ) (t : GusherNode) : (setObj o t).low = t.low := rfl

theorem builder_master (G : Graph) :
    ∀ (fuel : ℕ) (O : List String) (memo : Memo),
      (∀ v ∈ O, wordName v = true) → MemoInv G memo →
      MemoInv G (getstratrecurse G fuel O memo).2 ∧
      ∀ r, (getstratrecurse G fuel O memo).1 = some r →
        wordlikeB r = true ∧ weightFromB (some (gmOfGraph G)) r = true ∧
        r.data.parent = none := by
  intro fuel
  induction fuel with
  | zero =>
    intro O memo hO hm
    exact ⟨hm, fun r hr => by simp [getstratrecurse] at hr⟩
  | succ fuel ih =>
    intro O memo hO hm
    cases hlk : lookupMemo memo O with
    | some so =>
      obtain ⟨s, o⟩ := so
      rw [getstratrecurse_hit G fuel O memo s o hlk]
      refine ⟨hm, ?_⟩
      intro r hr
      obtain ⟨t, hs, ho, hword, hweight, hpar, hchild⟩ := hm O s o hlk
      obtain ⟨u, hu, hsk, hup⟩ :=
        read_write_tree (some (gmOfGraph G)) BASKET_LABEL t hword hweight
      simp only [readtreeObj, hs, hu, Option.map_some', Option.some.injEq] at hr
      subst hr
      refine ⟨?_, ?_, hup⟩
      · rw [wordlikeB_skel, skel_setObj, hsk, ← wordlikeB_skel]
        exact hword
      · rw [weightFromB_skel, skel_setObj, hsk, ← weightFromB_skel]
        exact hweight
    | none =>
      by_cases h1 : O.length = 1
      · cases O with
        | nil => simp at h1
        | cons v rest =>
          rw [getstratrecurse_one G fuel v rest memo hlk h1]
          refine ⟨hm, ?_⟩
          intro r hr
          simp only [Option.some.injEq] at hr
          subst hr
          have hv : wordName v = true := hO v (List.mem_cons_self v rest)
          refine ⟨?_, ?_, rfl⟩
          · rw [wordlikeB_skel, skel_setObj, ← wordlikeB_skel]
            simpa [makenode, initNode, wordlikeB] using hv
          · rw [weightFromB_skel, skel_setObj, ← weightFromB_skel]
            simp [makenode, initNode, weightFromB]
      · by_cases h2 : 1 < O.length
        · obtain ⟨hminv, hcands⟩ := candLoop_inv G fuel O (O.length : ℚ) ih hO O memo hm
          cases hcm :
              chooseMin (candLoop G (getstratrecurse G fuel) O (O.length : ℚ) O memo).1 with
          | none =>
            rw [getstratrecurse_rec_cmnone G fuel O memo hlk h1 h2 hcm]
            exact ⟨hminv, fun r hr => by simp at hr⟩
          | some c =>
            have hmem := (chooseMin_spec _ c hcm).1
            obtain ⟨hhi, hlo⟩ := hcands c hmem
            have hV : c.V ∈ O := by
              have hmap :=
                ((candLoop_spec G (getstratrecurse G fuel) O (O.length : ℚ)) O memo).1
              rw [← hmap]
              exact List.mem_map_of_mem _ hmem
            have hvword : wordName c.V = true := hO _ hV
            obtain ⟨N, hadd, hNhigh, hNlow, hNname, hNweight, hNparent⟩ :
                ∃ N, add_children (makenode G c.V) c.hiT c.loT 1 1 = some N ∧
                  N.high = c.hiT.map (attachTo (makenode G c.V).data 1) ∧
                  N.low = c.loT.map (attachTo (makenode G c.V).data 1) ∧
                  N.data.name = c.V ∧
                  N.data.weight = defWeight (some (gmOfGraph G)) c.V ∧
                  N.data.parent = none :=
              ⟨_, add_children_eq _ _ _ _ _ (fun h hh => ⟨rfl, (hhi h hh).2.2⟩)
                (fun l hl => ⟨rfl, (hlo l hl).2.2⟩), rfl, rfl, rfl, rfl, rfl⟩
            obtain ⟨Nd, Nhi, Nlo⟩ := N
            simp only [GusherNode.high_mk, GusherNode.low_mk, GusherNode.data_mk]
              at hNhigh hNlow hNname hNweight hNparent
            have hprops :
                wordlikeB (setObj c.score (GusherNode.mk Nd Nhi Nlo)) = true ∧
                weightFromB (some (gmOfGraph G))
                  (setObj c.score (GusherNode.mk Nd Nhi Nlo)) = true ∧
                (setObj c.score (GusherNode.mk Nd Nhi Nlo)).data.parent = none := by
              refine ⟨?_, ?_, ?_⟩
              · rw [wordlikeB_skel, skel_setObj, ← wordlikeB_skel, wordlikeB_node_iff]
                refine ⟨hNname ▸ hvword, ?_, ?_⟩
                · intro h hh
                  rw [hNhigh] at hh
                  obtain ⟨h0, hh0, rfl⟩ := Option.map_eq_some'.mp hh
                  rw [wordlikeB_skel, skel_attachTo, ← wordlikeB_skel]
                  exact (hhi h0 hh0).1
                · intro l hl
                  rw [hNlow] at hl
                  obtain ⟨l0, hl0, rfl⟩ := Option.map_eq_some'.mp hl
                  rw [wordlikeB_skel, skel_attachTo, ← wordlikeB_skel]
                  exact (hlo l0 hl0).1
              · rw [weightFromB_skel, skel_setObj, ← weightFromB_skel,
                  weightFromB_node_iff]
                refine ⟨by rw [hNweight, hNname], ?_, ?_⟩
                · intro h hh
                  rw [hNhigh] at hh
                  obtain ⟨h0, hh0, rfl⟩ := Option.map_eq_some'.mp hh
                  rw [weightFromB_skel, skel_attachTo, ← weightFromB_skel]
                  exact (hhi h0 hh0).2.1
                · intro l hl
                  rw [hNlow] at hl
                  obtain ⟨l0, hl0, rfl⟩ := Option.map_eq_some'.mp hl
                  rw [weightFromB_skel, skel_attachTo, ← weightFromB_skel]
                  exact (hlo l0 hl0).2.1
              · rw [setObj_parent]
                exact hNparent
            rcases Bool.eq_false_or_eq_true
                ((setObj c.score (GusherNode.mk Nd Nhi Nlo)).high.isSome ||
                  (setObj c.score (GusherNode.mk Nd Nhi Nlo)).low.isSome) with
              hcond | hcond
            · rw [getstratrecurse_rec_store G fuel O memo hlk h1 h2 c hcm _ hadd hcond]
              constructor
              · intro K s o hlkK
                simp only [lookupMemo] at hlkK
                split at hlkK
                · simp only [Option.some.injEq, Prod.mk.injEq] at hlkK
                  obtain ⟨rfl, rfl⟩ := hlkK
                  refine ⟨_, rfl, rfl, hprops.1, hprops.2.1, hprops.2.2, ?_⟩
                  simpa using hcond
                · exact hminv K s o hlkK
              · intro r hr
                simp only [Option.some.injEq] at hr
                subst hr
                exact hprops
            · rw [getstratrecurse_rec_nostore G fuel O memo hlk h1 h2 c hcm _ hadd hcond]
              refine ⟨hminv, ?_⟩
              intro r hr
              simp only [Option.some.injEq] at hr
              subst hr
              exact hprops
        · rw [getstratrecurse_other G fuel O memo hlk h1 h2]
          exact ⟨hm, fun r hr => by simp at hr⟩

/-- C6: with the subset not yet memoized, the optimal (narrow) builder:
(a) turns a singleton subset into a childless leaf with objective 0;
(b) for a subset of size `n > 1`, examines exactly the subset's vertices as
candidate pivots, scores each pivot `V` as
`(n-1)*penalty(V) + objH + objL` where `objH`/`objL` are the objectives of
the recursively solved adjacent and non-adjacent partitions of the subset
(0 when a partition yields no tree), and returns the minimally-scoring
pivot's node with the two solved partitions attached as children and the
minimal score recorded; (c) on three pairwise-adjacent locations with
uniform penalty 1 it returns a 2-level tree with objective 3. -/
theorem c6_builder_scoring (G : Graph) (fuel : ℕ) (O : List String) (memo : Memo)
    (hmiss : lookupMemo memo O = none) :
    (∀ v rest, O = v :: rest → O.length = 1 →
      getstratrecurse G (fuel + 1) O memo = (some (setObj 0 (makenode G v)), memo) ∧
      (setObj 0 (makenode G v)).data.obj = 0 ∧
      (setObj 0 (makenode G v)).high = none ∧ (setObj 0 (makenode G v)).low = none) ∧
    (1 < O.length →
      (candLoop G (getstratrecurse G fuel) O (O.length : ℚ) O memo).1.map
          (fun c => c.V) = O ∧
      (∀ c ∈ (candLoop G (getstratrecurse G fuel) O (O.length : ℚ) O memo).1,
        c.score = ((O.length : ℚ) - 1) * G.penalty c.V + objOpt c.hiT + objOpt c.loT ∧
        ∃ m1, (getstratrecurse G fuel (splitgraph G O c.V).1 m1).1 = c.hiT ∧
          (getstratrecurse G fuel (splitgraph G O c.V).2
            (getstratrecurse G fuel (splitgraph G O c.V).1 m1).2).1 = c.loT) ∧
      (∀ c, chooseMin
          (candLoop G (getstratrecurse G fuel) O (O.length : ℚ) O memo).1 = some c →
        c ∈ (candLoop G (getstratrecurse G fuel) O (O.length : ℚ) O memo).1 ∧
        (∀ c' ∈ (candLoop G (getstratrecurse G fuel) O (O.length : ℚ) O memo).1,
          c.score ≤ c'.score) ∧
        (getstratrecurse G (fuel + 1) O memo).1 =
          (add_children (makenode G c.V) c.hiT c.loT 1 1).map (setObj c.score))) ∧
    (getstratnarrow triGraph).map (fun t => (t.data.obj, shapeTwoLevel t, write_tree t)) =
      some (3, true, "A(B(C,),)") := by
  refine ⟨?_, ?_, triangle_eval⟩
  · intro v rest hO h1
    subst hO
    exact ⟨getstratrecurse_one G fuel v rest memo hmiss h1, rfl, rfl, rfl⟩
  · intro h2
    obtain ⟨hmap, hprops⟩ :=
      (candLoop_spec G (getstratrecurse G fuel) O ((O.length : ℚ))) O memo
    refine ⟨hmap, hprops, ?_⟩
    intro c hcm
    obtain ⟨hmem, hmin⟩ := chooseMin_spec _ c hcm
    refine ⟨hmem, hmin, ?_⟩
    cases hadd : add_children (makenode G c.V) c.hiT c.loT 1 1 with
    | none =>
      rw [getstratrecurse_rec_addnone G fuel O memo hmiss (by omega) h2 c hcm hadd]
      rfl
    | some root =>
      rw [getstratrecurse_rec_addsome G fuel O memo hmiss (by omega) h2 c hcm root hadd]
      split <;> rfl

theorem c6_witness :
    getstratrecurse oneGraph 1 ["x"] [] =
      (some (setObj 0 (makenode oneGraph "x")), []) :=
  ((c6_builder_scoring oneGraph 0 ["x"] [] rfl).1 "x" [] rfl rfl).1

/-- C7 (corrected): on the two-location instance — `A` and `B` adjacent,
penalties 2 and 1 respectively — the optimal (narrow) builder picks `B`, the
vertex with the *lower* penalty, not `A`: pivot scores are
`(2-1)*penalty(V)`, i.e. 2 for `A` and 1 for `B`, so the minimum is `B`,
the objective is `(2-1)*1 = 1`, and the tree text is `"B(A,)"`. -/
theorem c7_two_gushers :
    (getstratnarrow twoGraph).map (fun t => t.data.name) = some "B" ∧
    (getstratnarrow twoGraph).map (fun t => t.data.obj) = some 1 ∧
    (getstratnarrow twoGraph).map (fun t => write_tree t) = some "B(A,)" := by
  have h := twoGraph_eval
  cases hg : getstratnarrow twoGraph with
  | none => rw [hg] at h; cases h
  | some t =>
    rw [hg] at h
    simp only [Option.map_some', Option.some.injEq, Prod.mk.injEq] at h
    obtain ⟨h1, h2, h3⟩ := h
    exact ⟨by simp [h1], by simp [h2], by simp [h3]⟩

/-- C7 counterexample: the builder does not return a tree rooted at `A` with
objective 2 and text `"A(,B)"` or `"A(B,)"` on that instance. -/
theorem c7_counterexample :
    ¬ ∃ t, getstratnarrow twoGraph = some t ∧ t.data.name = "A" ∧ t.data.obj = 2 ∧
      (write_tree t = "A(,B)" ∨ write_tree t = "A(B,)") := by
  rintro ⟨t, ht, hname, -, -⟩
  have h := twoGraph_eval
  rw [ht] at h
  simp only [Option.map_some', Option.some.injEq, Prod.mk.injEq] at h
  rw [hname] at h
  exact absurd h.1 (by decide)

/-- C9: the optimal builder's memo table stores each solved non-leaf subtree
as serialized text together with its objective, keyed by the vertex subset
(invariant `MemoInv`, preserved by every builder call); a cache hit returns
the *re-parse* of the stored text with the stored objective attached — a
fresh tree that is structurally equal (`is_same_tree`: same names,
findability, weights, shape) to the subtree originally solved for that
subset, with a parentless root (so it shares no ancestry link with any other
part of the final result; in this embedding trees are values, and the
independence the source buys by re-parsing is exactly that the hit is built
from the text alone); and a fresh non-leaf solve appends its own serialized
form and objective under the subset key. -/
theorem c9_memo_independence (G : Graph) (fuel : ℕ) (O : List String) (memo : Memo)
    (hO : ∀ v ∈ O, wordName v = true) (hmemo : MemoInv G memo) :
    MemoInv G (getstratrecurse G fuel O memo).2 ∧
    (∀ s o, lookupMemo memo O = some (s, o) →
      getstratrecurse G (fuel + 1) O memo = (readtreeObj s G o, memo) ∧
      ∃ t u, s = write_tree t ∧ o = t.data.obj ∧ (t.high.isSome ∨ t.low.isSome) ∧
        readtreeObj s G o = some u ∧ is_same_tree u (some t) = true ∧
        u.data.obj = t.data.obj ∧ u.data.parent = none) ∧
    (∀ root, lookupMemo memo O = none →
      (getstratrecurse G (fuel + 1) O memo).1 = some root →
      (root.high.isSome || root.low.isSome) = true →
      ∃ memo', (getstratrecurse G (fuel + 1) O memo).2 =
        (O, write_tree root, root.data.obj) :: memo') := by
  refine ⟨(builder_master G fuel O memo hO hmemo).1, ?_, ?_⟩
  · intro s o hlk
    refine ⟨getstratrecurse_hit G fuel O memo s o hlk, ?_⟩
    obtain ⟨t, hs, ho, hword, hweight, hpar, hchild⟩ := hmemo O s o hlk
    obtain ⟨u₀, hu, hsk, hup⟩ :=
      read_write_tree (some (gmOfGraph G)) BASKET_LABEL t hword hweight
    refine ⟨t, setObj o u₀, hs, ho, hchild, ?_, ?_, ?_, ?_⟩
    · simp only [readtreeObj, hs, hu, Option.map_some']
    · exact (is_same_iff_skel _ t).mpr (by rw [skel_setObj, hsk])
    · exact ho
    · rw [setObj_parent]
      exact hup
  · intro root hlk hroot hchild
    by_cases h1 : O.length = 1
    · cases O with
      | nil => simp at h1
      | cons v rest =>
        rw [getstratrecurse_one G fuel v rest memo hlk h1] at hroot
        simp only [Option.some.injEq] at hroot
        rw [← hroot] at hchild
        simp [setObj, makenode, initNode] at hchild
    · by_cases h2 : 1 < O.length
      · cases hcm :
            chooseMin (candLoop G (getstratrecurse G fuel) O (O.length : ℚ) O memo).1 with
        | none =>
          rw [getstratrecurse_rec_cmnone G fuel O memo hlk h1 h2 hcm] at hroot
          simp at hroot
        | some c =>
          cases hadd : add_children (makenode G c.V) c.hiT c.loT 1 1 with
          | none =>
            rw [getstratrecurse_rec_addnone G fuel O memo hlk h1 h2 c hcm hadd] at hroot
            simp at hroot
          | some rootN =>
            rcases Bool.eq_false_or_eq_true
                ((setObj c.score rootN).high.isSome ||
                  (setObj c.score rootN).low.isSome) with hcond | hcond
            · rw [getstratrecurse_rec_store G fuel O memo hlk h1 h2 c hcm rootN
                hadd hcond] at hroot ⊢
              simp only [Option.some.injEq] at hroot
              rw [← hroot]
              exact ⟨_, rfl⟩
            · rw [getstratrecurse_rec_nostore G fuel O memo hlk h1 h2 c hcm rootN
                hadd hcond] at hroot
              simp only [Option.some.injEq] at hroot
              rw [← hroot] at hchild
              rw [hchild] at hcond
              cases hcond
      · rw [getstratrecurse_other G fuel O memo hlk h1 h2] at hroot
        simp at hroot

theorem c9_witness :
    MemoInv oneGraph (getstratrecurse oneGraph 0 ["x"] []).2 :=
  (c9_memo_independence oneGraph 0 ["x"] [] (by decide)
    (fun _ _ _ h => by simp [lookupMemo] at h)).1
